import Mathlib

set_option maxHeartbeats 1000000

namespace EZchain

/-!
Shallow embedding of the EZchain repository (Python) used to check the
natural-language specification against the code.

Conventions of the embedding:
* Python `int` values are `Nat` (hex-address strings such as `begin_index`
  are identified with the natural number they denote: `hex()`/`int(_,16)`
  form a bijection between canonical hex strings and naturals, and the code
  only produces canonical strings via `hex()`).
* Values that Python mutates in place are threaded explicitly: a mutating
  method becomes a function returning the updated object (and its result).
* A Python function raising `ValueError`/returning error becomes `Except`.
-/

/-- State of a `Value` (src/EZ_Value/Value.py, class ValueState). -/
inductive ValueState where
  | unspent
  | selected
  | localCommitted
  | confirmed
deriving DecidableEq

/-- A `Value` (src/EZ_Value/Value.py): an inclusive interval of coins.
`beginIdx` is the decimal form of `begin_index`; `end_index` is derived as
`begin + num - 1` by the constructor, so we keep it derived here. -/
structure Value where
  beginIdx : Nat
  valueNum : Nat
  state : ValueState
deriving DecidableEq

/-- Derived `end_index` (`get_end_index`): `begin + num - 1`, inclusive. -/
def Value.endIdx (v : Value) : Nat :=
  v.beginIdx + v.valueNum - 1

/-- Membership of a point in the (inclusive) interval of a value. -/
def Value.memIv (v : Value) (i : Nat) : Prop :=
  v.beginIdx ≤ i ∧ i ≤ v.endIdx

instance (v : Value) (i : Nat) : Decidable (v.memIv i) := by
  unfold Value.memIv; infer_instance

/-- `Value.split_value` (src/EZ_Value/Value.py lines 44-51). The Python
`change` is an arbitrary `int`, so it is taken as `Int` here; the guard
`change <= 0 or change >= self.value_num` raises `ValueError`. -/
def Value.splitValue (v : Value) (change : Int) : Except String (Value × Value) :=
  if change ≤ 0 ∨ (v.valueNum : Int) ≤ change then
    .error "Invalid change value"
  else
    let c := change.toNat
    let v1 : Value := ⟨v.beginIdx, v.valueNum - c, v.state⟩
    let v2 : Value := ⟨v1.endIdx + 1, c, v.state⟩
    .ok (v1, v2)

/-- `Value.set_state` (src/EZ_Value/Value.py lines 66-69): after the runtime
type check (statically guaranteed here) the state is assigned
unconditionally. -/
def Value.setState (v : Value) (newState : ValueState) : Value :=
  { v with state := newState }

/-- `Value.is_intersect_value` (src/EZ_Value/Value.py lines 111-116). -/
def Value.isIntersectValue (v target : Value) : Bool :=
  decide (target.beginIdx ≤ v.endIdx ∧ v.beginIdx ≤ target.endIdx)

/-- `Value.get_intersect_value` (src/EZ_Value/Value.py lines 89-109).
Note that the intersection and the rest pieces are built with
`Value(begin, num)` i.e. with the constructor's default state
`ValueState.UNSPENT`. -/
def Value.getIntersectValue (v target : Value) : Option (Value × List Value) :=
  if min target.endIdx v.endIdx < max target.beginIdx v.beginIdx then
    none
  else
    some (⟨max target.beginIdx v.beginIdx,
           min target.endIdx v.endIdx - max target.beginIdx v.beginIdx + 1,
           .unspent⟩,
      (if v.beginIdx < max target.beginIdx v.beginIdx then
        [⟨v.beginIdx, max target.beginIdx v.beginIdx - v.beginIdx, .unspent⟩]
      else []) ++
      (if min target.endIdx v.endIdx < v.endIdx then
        [⟨min target.endIdx v.endIdx + 1,
          v.endIdx - min target.endIdx v.endIdx, .unspent⟩]
      else []))

/-- `Value.is_same_value` (src/EZ_Value/Value.py lines 125-129): compares
`begin_index`, `end_index` and `value_num`, but not the state. -/
def Value.isSameValue (v target : Value) : Bool :=
  decide (target.beginIdx = v.beginIdx ∧ target.endIdx = v.endIdx ∧
    target.valueNum = v.valueNum)

end EZchain

namespace EZchain

/-! Account value collection (src/EZ_Value/AccountValueCollection.py).
The linked list with its `node_id` index is modelled as a list of nodes in
list order; the state index `_state_index` is definitionally the set of
nodes whose value has that state, and `find_by_state` scans it (a Python
set) -- modelled here in list order, matching the spec's
"insertion order" reading.  Only the operations the claims need are
embedded. -/

/-- A node of the collection: `ValueNode` with its `node_id`. -/
structure VNode where
  nodeId : Nat
  val : Value
deriving DecidableEq

/-- The collection (`AccountValueCollection`): nodes in linked-list order. -/
structure AVColl where
  nodes : List VNode
deriving DecidableEq

/-- `find_by_state`: all values currently in the given state. -/
def AVColl.findByState (c : AVColl) (s : ValueState) : List Value :=
  (c.nodes.filter (fun n => n.val.state = s)).map (·.val)

/-- `get_balance_by_state`: sum of `value_num` over values in a state. -/
def AVColl.balanceByState (c : AVColl) (s : ValueState) : Nat :=
  ((c.findByState s).map (·.valueNum)).sum

/-- `update_value_state` (AccountValueCollection.py lines 186-202): returns
`false` on an unknown node id; a transition to the same state is a no-op
returning `true`; otherwise the state is assigned (via `set_state`) with no
restriction on the transition, returning `true`. -/
def AVColl.updateValueState (c : AVColl) (nid : Nat) (s : ValueState) :
    Bool × AVColl :=
  match c.nodes.find? (fun n => n.nodeId = nid) with
  | none => (false, c)
  | some n =>
    if n.val.state = s then
      (true, c)
    else
      (true, ⟨c.nodes.map (fun m => if m.nodeId = nid then ⟨m.nodeId, m.val.setState s⟩ else m)⟩)

/-- State of the node with the given id, if present. -/
def AVColl.stateOf (c : AVColl) (nid : Nat) : Option ValueState :=
  (c.nodes.find? (fun n => n.nodeId = nid)).map (·.val.state)

end EZchain

namespace EZchain

/-- C4: for every `Value` with `count ≥ 1` and every `0 < change < count`,
`split_value` returns `(keep, change_value)` with
`keep = [begin, begin+count-change-1]` and `change_value = [keep.end+1, end]`,
whose union is the original interval and whose intersection is empty, both
inheriting the parent's state; `change ≤ 0` or `change ≥ count` fails with
`InvalidArgument` (`ValueError`). -/
theorem C4_split_value_correct (v : Value) (change : Int)
    (hn : 1 ≤ v.valueNum) :
    ((0 < change ∧ change < (v.valueNum : Int)) →
      ∃ keep chg, v.splitValue change = .ok (keep, chg) ∧
        keep.beginIdx = v.beginIdx ∧
        keep.endIdx = v.beginIdx + v.valueNum - change.toNat - 1 ∧
        chg.beginIdx = keep.endIdx + 1 ∧
        chg.endIdx = v.endIdx ∧
        keep.state = v.state ∧ chg.state = v.state ∧
        (∀ i, v.memIv i ↔ (keep.memIv i ∨ chg.memIv i)) ∧
        (∀ i, ¬ (keep.memIv i ∧ chg.memIv i))) ∧
    ((change ≤ 0 ∨ (v.valueNum : Int) ≤ change) →
      v.splitValue change = .error "Invalid change value") := by
  constructor
  · rintro ⟨hpos, hlt⟩
    have hle : change.toNat < v.valueNum := by
      omega
    have hc1 : 1 ≤ change.toNat := by omega
    refine ⟨⟨v.beginIdx, v.valueNum - change.toNat, v.state⟩,
      ⟨v.beginIdx + (v.valueNum - change.toNat) - 1 + 1, change.toNat, v.state⟩,
      ?_, rfl, ?_, ?_, ?_, rfl, rfl, ?_, ?_⟩
    · unfold Value.splitValue
      rw [if_neg (by omega)]
      rfl
    · simp only [Value.endIdx]
      omega
    · simp only [Value.endIdx]
    · simp only [Value.endIdx]
      omega
    · intro i
      simp only [Value.memIv, Value.endIdx]
      omega
    · intro i
      simp only [Value.memIv, Value.endIdx]
      omega
  · intro h
    unfold Value.splitValue
    rw [if_pos h]

/-- C5 fails as stated: the source builds the intersection with
`Value(hex(intersect_begin), n)` and the constructor's default state
`UNSPENT`, so the intersection does not adopt `self`'s state. Concrete
input: `self = [0x1, 0x4]` in state `selected`, `other = [0x2, 0x2]`. -/
theorem C5_counterexample_state_not_adopted :
    ∃ inter rest,
      (Value.mk 1 4 .selected).getIntersectValue (Value.mk 2 1 .unspent) =
        some (inter, rest) ∧
      inter.state ≠ (Value.mk 1 4 .selected).state := by
  refine ⟨⟨2, 1, .unspent⟩, [⟨1, 1, .unspent⟩, ⟨3, 2, .unspent⟩], ?_, by decide⟩
  decide

/-- Helper: the `rest` list produced by `get_intersect_value` covers exactly
the points of `self` before the intersection and after it. -/
lemma mem_restPieces {a b : Value} {i : Nat} :
    (∃ r ∈ ((if a.beginIdx < max b.beginIdx a.beginIdx then
        [(⟨a.beginIdx, max b.beginIdx a.beginIdx - a.beginIdx,
          ValueState.unspent⟩ : Value)] else []) ++
      (if min b.endIdx a.endIdx < a.endIdx then
        [(⟨min b.endIdx a.endIdx + 1, a.endIdx - min b.endIdx a.endIdx,
          ValueState.unspent⟩ : Value)] else [])),
      r.memIv i) ↔
    ((a.beginIdx ≤ i ∧ i < max b.beginIdx a.beginIdx) ∨
     (min b.endIdx a.endIdx < i ∧ i ≤ a.endIdx)) := by
  have hA : a.endIdx = a.beginIdx + a.valueNum - 1 := rfl
  have hB : b.endIdx = b.beginIdx + b.valueNum - 1 := rfl
  constructor
  · rintro ⟨r, hrm, hri⟩
    rcases List.mem_append.mp hrm with hrm | hrm
    · by_cases hg : a.beginIdx < max b.beginIdx a.beginIdx
      · rw [if_pos hg, List.mem_singleton] at hrm
        subst hrm
        revert hri
        simp only [Value.memIv, Value.endIdx, Nat.max_def, Nat.min_def]
        split_ifs <;> omega
      · rw [if_neg hg] at hrm
        exact absurd hrm (List.not_mem_nil r)
    · by_cases hg : min b.endIdx a.endIdx < a.endIdx
      · rw [if_pos hg, List.mem_singleton] at hrm
        subst hrm
        revert hri hg
        simp only [Value.memIv, Value.endIdx, Nat.max_def, Nat.min_def]
        split_ifs <;> omega
      · rw [if_neg hg] at hrm
        exact absurd hrm (List.not_mem_nil r)
  · intro hcase
    rcases hcase with ⟨h1, h2⟩ | ⟨h1, h2⟩
    · refine ⟨⟨a.beginIdx, max b.beginIdx a.beginIdx - a.beginIdx,
        ValueState.unspent⟩, ?_, ?_⟩
      · rw [List.mem_append]
        left
        rw [if_pos (by omega)]
        exact List.mem_singleton.mpr rfl
      · revert h1 h2
        simp only [Value.memIv, Value.endIdx, Nat.max_def, Nat.min_def]
        split_ifs <;> omega
    · refine ⟨⟨min b.endIdx a.endIdx + 1, a.endIdx - min b.endIdx a.endIdx,
        ValueState.unspent⟩, ?_, ?_⟩
      · rw [List.mem_append]
        right
        rw [if_pos (by omega)]
        exact List.mem_singleton.mpr rfl
      · revert h1 h2
        simp only [Value.memIv, Value.endIdx, Nat.max_def, Nat.min_def]
        split_ifs <;> omega

/-- Helper: every piece of the `rest` list is one of the two candidate
intervals (used for disjointness, length and state facts). -/
lemma restPieces_cases {a b : Value} {r : Value}
    (hrm : r ∈ ((if a.beginIdx < max b.beginIdx a.beginIdx then
        [(⟨a.beginIdx, max b.beginIdx a.beginIdx - a.beginIdx,
          ValueState.unspent⟩ : Value)] else []) ++
      (if min b.endIdx a.endIdx < a.endIdx then
        [(⟨min b.endIdx a.endIdx + 1, a.endIdx - min b.endIdx a.endIdx,
          ValueState.unspent⟩ : Value)] else []))) :
    (r = ⟨a.beginIdx, max b.beginIdx a.beginIdx - a.beginIdx,
        ValueState.unspent⟩ ∧ a.beginIdx < max b.beginIdx a.beginIdx) ∨
    (r = ⟨min b.endIdx a.endIdx + 1, a.endIdx - min b.endIdx a.endIdx,
        ValueState.unspent⟩ ∧ min b.endIdx a.endIdx < a.endIdx) := by
  rcases List.mem_append.mp hrm with hrm | hrm
  · by_cases hg : a.beginIdx < max b.beginIdx a.beginIdx
    · rw [if_pos hg, List.mem_singleton] at hrm
      exact Or.inl ⟨hrm, hg⟩
    · rw [if_neg hg] at hrm
      exact absurd hrm (List.not_mem_nil r)
  · by_cases hg : min b.endIdx a.endIdx < a.endIdx
    · rw [if_pos hg, List.mem_singleton] at hrm
      exact Or.inr ⟨hrm, hg⟩
    · rw [if_neg hg] at hrm
      exact absurd hrm (List.not_mem_nil r)

/-- C5 as amended: `get_intersect_value` returns `None` iff
`is_intersect_value` is `false`; when non-empty it returns
`(intersection, rest)` with the intersection contained in both inputs and
`rest` the 0, 1 or 2 sub-intervals of `self` exactly tiling
`self \ intersection`, the pieces mutually disjoint; the intersection (and
the rest pieces) are created with the constructor's default `Unspent` state
rather than adopting `self`'s state. -/
theorem C5_intersect_amended (a b : Value)
    (ha : 1 ≤ a.valueNum) (hb : 1 ≤ b.valueNum) :
    (a.getIntersectValue b = none ↔ a.isIntersectValue b = false) ∧
    (∀ inter rest, a.getIntersectValue b = some (inter, rest) →
      (∀ i, inter.memIv i → a.memIv i ∧ b.memIv i) ∧
      (∀ i, (a.memIv i ∧ ¬ inter.memIv i) ↔ ∃ r ∈ rest, r.memIv i) ∧
      (∀ r ∈ rest, ∀ i, ¬ (inter.memIv i ∧ r.memIv i)) ∧
      rest.length ≤ 2 ∧
      inter.state = .unspent ∧ (∀ r ∈ rest, r.state = .unspent)) := by
  have hA : a.endIdx = a.beginIdx + a.valueNum - 1 := rfl
  have hB : b.endIdx = b.beginIdx + b.valueNum - 1 := rfl
  constructor
  · unfold Value.getIntersectValue Value.isIntersectValue
    split
    · rename_i hlt
      simp only [decide_eq_false_iff_not]
      constructor
      · intro _
        revert hlt
        simp only [Nat.max_def, Nat.min_def]
        split_ifs <;> omega
      · intro _
        trivial
    · rename_i hge
      simp only [decide_eq_false_iff_not]
      constructor
      · intro hc
        simp at hc
      · intro hne
        exact absurd (show b.beginIdx ≤ a.endIdx ∧ a.beginIdx ≤ b.endIdx by
          revert hge
          simp only [Nat.max_def, Nat.min_def]
          split_ifs <;> omega) hne
  · intro inter rest h
    unfold Value.getIntersectValue at h
    split at h
    · exact absurd h (by simp)
    · rename_i hge
      rw [Option.some_inj] at h
      injection h with hi hr
      subst hi
      subst hr
      refine ⟨?_, ?_, ?_, ?_, rfl, ?_⟩
      · intro i hmem
        revert hmem
        simp only [Value.memIv, Value.endIdx, Nat.max_def, Nat.min_def]
        split_ifs <;> omega
      · intro i
        rw [mem_restPieces]
        simp only [Value.memIv, Value.endIdx, Nat.max_def, Nat.min_def]
        split_ifs <;> omega
      · intro r hrm i
        rcases restPieces_cases hrm with ⟨rfl, hg⟩ | ⟨rfl, hg⟩ <;>
          revert hg <;>
          simp only [Value.memIv, Value.endIdx, not_and, Nat.max_def,
            Nat.min_def] <;>
          split_ifs <;> omega
      · rcases Nat.lt_or_ge a.beginIdx (max b.beginIdx a.beginIdx) with h1 | h1 <;>
          rcases Nat.lt_or_ge (min b.endIdx a.endIdx) a.endIdx with h2 | h2 <;>
          simp [h1, h2, Nat.not_lt.mpr h1, Nat.not_lt.mpr h2]
      · intro r hrm
        rcases restPieces_cases hrm with ⟨rfl, _⟩ | ⟨rfl, _⟩ <;> rfl

/-- Witness for C5's amended theorem at `self = [0x5, 0xc]` (state
`selected`), `other = [0x8, 0x14]`: intersection `[0x8, 0xc]`, one rest
piece `[0x5, 0x7]`. -/
theorem C5_intersect_amended_witness :
    ((Value.mk 5 8 .selected).getIntersectValue (Value.mk 8 13 .unspent) =
        none ↔
      (Value.mk 5 8 .selected).isIntersectValue (Value.mk 8 13 .unspent) =
        false) ∧
    (∀ inter rest,
      (Value.mk 5 8 .selected).getIntersectValue (Value.mk 8 13 .unspent) =
        some (inter, rest) →
      (∀ i, inter.memIv i →
        (Value.mk 5 8 .selected).memIv i ∧ (Value.mk 8 13 .unspent).memIv i) ∧
      (∀ i, ((Value.mk 5 8 .selected).memIv i ∧ ¬ inter.memIv i) ↔
        ∃ r ∈ rest, r.memIv i) ∧
      (∀ r ∈ rest, ∀ i, ¬ (inter.memIv i ∧ r.memIv i)) ∧
      rest.length ≤ 2 ∧
      inter.state = .unspent ∧ (∀ r ∈ rest, r.state = .unspent)) :=
  C5_intersect_amended (Value.mk 5 8 .selected) (Value.mk 8 13 .unspent)
    (by norm_num) (by norm_num)

/-- C6 fails as stated: neither `Value.set_state` nor
`AccountValueCollection.update_value_state` restricts transitions to the
DAG. Concrete input: a collection holding one `Confirmed` value; requesting
the off-DAG transition `Confirmed → Unspent` is accepted (returns `True`
and applies it), not rejected with an error. The repository's own tests
(`test_value.py::test_set_state_valid`) exercise `Confirmed → Unspent` and
expect success. -/
theorem C6_counterexample_confirmed_to_unspent :
    (Value.mk 5 3 .confirmed).setState .unspent = Value.mk 5 3 .unspent ∧
    (AVColl.updateValueState ⟨[⟨0, ⟨5, 3, .confirmed⟩⟩]⟩ 0 .unspent).1 = true ∧
    (AVColl.updateValueState ⟨[⟨0, ⟨5, 3, .confirmed⟩⟩]⟩ 0 .unspent).2.stateOf 0 =
      some .unspent := by
  refine ⟨rfl, rfl, rfl⟩

/-- Helper: looking a node id up after the state-update map of
`update_value_state` yields the original node with its state replaced. -/
lemma find?_update_map (l : List VNode) (nid : Nat) (s : ValueState) :
    (l.map (fun m => if m.nodeId = nid then ⟨m.nodeId, m.val.setState s⟩
        else m)).find? (fun n => n.nodeId = nid) =
      (l.find? (fun n => n.nodeId = nid)).map
        (fun n => ⟨n.nodeId, n.val.setState s⟩) := by
  induction l with
  | nil => rfl
  | cons m l ih =>
    by_cases hm : m.nodeId = nid
    · simp only [List.map_cons, if_pos hm]
      rw [List.find?_cons_of_pos _ (by simp [hm]),
        List.find?_cons_of_pos _ (by simp [hm])]
      rfl
    · simp only [List.map_cons, if_neg hm]
      rw [List.find?_cons_of_neg _ (by simp [hm]),
        List.find?_cons_of_neg _ (by simp [hm])]
      exact ih

/-- C6 as amended: state transitions are not restricted at all. Requesting
the current state again is a no-op returning `True`; requesting any other
`ValueState` — including transitions off the DAG such as
`Confirmed → Unspent` — is accepted: `update_value_state` returns `True`
and applies it (only an unknown node id is refused, with `False`), and
`Value.set_state` assigns unconditionally (its only check, that the
argument is a `ValueState`, is static here). -/
theorem C6_state_transitions_amended (c : AVColl) (nid : Nat)
    (s : ValueState) :
    (c.stateOf nid = none → c.updateValueState nid s = (false, c)) ∧
    (c.stateOf nid = some s → c.updateValueState nid s = (true, c)) ∧
    (∀ s₀, c.stateOf nid = some s₀ → s₀ ≠ s →
      (c.updateValueState nid s).1 = true ∧
      (c.updateValueState nid s).2.stateOf nid = some s) ∧
    (∀ v : Value, (v.setState s).state = s) := by
  refine ⟨?_, ?_, ?_, fun _ => rfl⟩
  · intro hnone
    unfold AVColl.updateValueState
    unfold AVColl.stateOf at hnone
    cases hfind : c.nodes.find? (fun n => n.nodeId = nid) with
    | none => rfl
    | some n => rw [hfind] at hnone; exact absurd hnone (by simp)
  · intro hsome
    unfold AVColl.updateValueState
    unfold AVColl.stateOf at hsome
    cases hfind : c.nodes.find? (fun n => n.nodeId = nid) with
    | none => rw [hfind] at hsome; exact absurd hsome (by simp)
    | some n =>
      rw [hfind] at hsome
      simp only [Option.map_some', Option.some_inj] at hsome
      dsimp only
      rw [if_pos hsome]
  · intro s₀ hsome hne
    unfold AVColl.updateValueState
    unfold AVColl.stateOf at hsome
    cases hfind : c.nodes.find? (fun n => n.nodeId = nid) with
    | none => rw [hfind] at hsome; exact absurd hsome (by simp)
    | some n =>
      rw [hfind] at hsome
      simp only [Option.map_some', Option.some_inj] at hsome
      dsimp only
      rw [if_neg (by rw [hsome]; exact hne)]
      refine ⟨rfl, ?_⟩
      unfold AVColl.stateOf
      simp only
      rw [find?_update_map, hfind]
      rfl

/-- Witness for C6's amended theorem: a two-node collection, updating node
1 from `Confirmed` to `Unspent` succeeds and applies. -/
theorem C6_state_transitions_amended_witness :
    ((AVColl.mk [⟨0, ⟨1, 2, .unspent⟩⟩, ⟨1, ⟨9, 4, .confirmed⟩⟩]).updateValueState
        1 .unspent).1 = true ∧
    ((AVColl.mk [⟨0, ⟨1, 2, .unspent⟩⟩, ⟨1, ⟨9, 4, .confirmed⟩⟩]).updateValueState
        1 .unspent).2.stateOf 1 = some .unspent :=
  (C6_state_transitions_amended
      (AVColl.mk [⟨0, ⟨1, 2, .unspent⟩⟩, ⟨1, ⟨9, 4, .confirmed⟩⟩]) 1
      .unspent).2.2.1 .confirmed (by rfl) (by decide)

/-! Transaction signing (src/EZ_Transaction/SingleTransaction.py together
with src/EZ_Tool_Box/SecureSignature.py).  The deterministic JSON encoding
(`json.dumps` with sorted keys and compact separators) is injective on the
records it serializes, so the signed payload is modelled as the record
itself; SHA-256 plus ECDSA is idealized as an unforgeable signature over
the payload: a signature object carries the signing key id and the exact
payload it signed, and verification succeeds iff the key matches and the
recomputed payload coincides (hash collisions excluded). -/

/-- Dictionary form of a `Value` as produced by `Value.to_dict`
(src/EZ_Value/Value.py lines 131-138, state included) and
`Value.to_dict_for_signing` (lines 140-146, state omitted). -/
structure SerializedValue where
  sBeginIdx : Nat
  sEndIdx : Nat
  sValueNum : Nat
  sState : Option ValueState
deriving DecidableEq

/-- `Value.to_dict`: begin, end, count and the state. -/
def Value.toDict (v : Value) : SerializedValue :=
  ⟨v.beginIdx, v.endIdx, v.valueNum, some v.state⟩

/-- `Value.to_dict_for_signing`: begin, end, count only (no state). This
serializer exists in the source but is never called by
`sig_txn`/`check_txn_sig`. -/
def Value.toDictForSigning (v : Value) : SerializedValue :=
  ⟨v.beginIdx, v.endIdx, v.valueNum, none⟩

/-- The canonical signed payload `{sender, recipient, nonce, timestamp,
value}` built by `SecureSignature.sign_transaction` /
`verify_transaction_signature`. -/
structure TxnMsg where
  mSender : String
  mRecipient : String
  mNonce : Nat
  mTimestamp : String
  mValue : List SerializedValue
deriving DecidableEq

/-- Idealized ECDSA signature: the signing key id together with the signed
payload. -/
structure Sig where
  sigKey : Nat
  sigMsg : TxnMsg
deriving DecidableEq

/-- A single `Transaction` (only the fields the signature path reads). -/
structure Txn where
  sender : String
  recipient : String
  nonce : Nat
  signature : Option Sig
  value : List Value
  time : String
deriving DecidableEq

/-- `Transaction._serialize_values` (SingleTransaction.py lines 50-63):
values are serialized with `to_dict()`, which includes the state. -/
def Txn.serializeValues (t : Txn) : List SerializedValue :=
  t.value.map Value.toDict

/-- The payload that `sig_txn` signs and `check_txn_sig` recomputes. -/
def Txn.signableMsg (t : Txn) : TxnMsg :=
  ⟨t.sender, t.recipient, t.nonce, t.time, t.serializeValues⟩

/-- `Transaction.sig_txn` (lines 82-104): signs the payload built from
`_serialize_values()` under the private key. -/
def Txn.sigTxn (t : Txn) (priv : Nat) : Txn :=
  { t with signature := some ⟨priv, t.signableMsg⟩ }

/-- `Transaction.check_txn_sig` (lines 110-129): `False` without a
signature, otherwise verifies the signature against the recomputed payload
under the public key (key pairs share their id in the idealization). -/
def Txn.checkTxnSig (t : Txn) (pub : Nat) : Bool :=
  match t.signature with
  | none => false
  | some s => decide (s.sigKey = pub ∧ s.sigMsg = t.signableMsg)

/-- Lifecycle state mutation of all values of a transaction (the aliased
`Value` objects are mutated in place by `set_state`). -/
def Txn.setValueStates (t : Txn) (s : ValueState) : Txn :=
  { t with value := t.value.map (fun v => v.setState s) }

/-- A concrete transaction for the C1 evaluation. -/
def c1Txn : Txn :=
  ⟨"alice", "bob", 0, none, [⟨16, 5, .unspent⟩], "2025-01-01T00:00:00"⟩

/-- C1 fails on the code: `sig_txn`/`check_txn_sig` serialize values with
`to_dict()`, which includes `state`, so mutating a value's state after
signing changes the recomputed payload and verification returns `False`
(the first lifecycle step `Unspent → Selected` already breaks it), while
the state-free serializer `to_dict_for_signing` exists unused and would
have made the payload invariant. The repository's own test
`test_single_transaction.py::test_signature_verification_with_state_change`
expects verification to stay `True`. -/
theorem C1_sig_state_change_code_bug :
    ((c1Txn.sigTxn 7).checkTxnSig 7 = true) ∧
    (((c1Txn.sigTxn 7).setValueStates .selected).checkTxnSig 7 = false) ∧
    (((c1Txn.sigTxn 7).setValueStates .selected).signableMsg ≠
      (c1Txn.sigTxn 7).signableMsg) ∧
    (((c1Txn.sigTxn 7).setValueStates .selected).value.map
        Value.toDictForSigning =
      (c1Txn.sigTxn 7).value.map Value.toDictForSigning) := by
  refine ⟨by decide, by decide, by decide, by decide⟩

end EZchain

namespace EZchain

/-! The block header (src/EZ_Main_Chain/Block.py). -/

/-- A `Block` (header attributes; `bloomStr` is the Python `str(...)` form
of the Bloom filter object, `sig` the signature, excluded from the header
string). The source class has no version attribute. -/
structure Block where
  index : Nat
  nonce : Nat
  bloomStr : String
  mTreeRoot : String
  time : String
  miner : String
  preHash : String
  sig : String
deriving DecidableEq

/-- The lines of `Block.block_to_str` (Block.py lines 56-73), in order. -/
def Block.headerLines (b : Block) : List String :=
  ["Index: " ++ toString b.index,
   "Nonce: " ++ toString b.nonce,
   "Bloom: " ++ b.bloomStr,
   "Merkle Tree Root: " ++ b.mTreeRoot,
   "Time: " ++ b.time,
   "Miner: " ++ b.miner,
   "Previous Hash: " ++ b.preHash]

/-- `Block.block_to_str`: the line-terminated concatenation of the header
lines (no signature line, and no version line). -/
def Block.blockToStr (b : Block) : String :=
  String.join (b.headerLines.map (· ++ "\n"))

/-- `Block.get_hash` (lines 124-126): SHA-256 (hex digest, abstracted as a
function parameter) of `block_to_str()`. -/
def Block.getHash (sha256hex : String → String) (b : Block) : String :=
  sha256hex b.blockToStr

/-- A concrete block for the C8 evaluation. -/
def c8Block : Block :=
  ⟨1, 0, "bloom-bits", "rooothash", "2025-01-01 00:00:00", "miner-1",
   "prevhash", "sig-1"⟩

/-- C8 fails on the code: the hash is SHA-256 over the canonical header
excluding the signature (first two conjuncts), but the canonical header
consists of the seven lines Index, Nonce, Bloom, Merkle Tree Root, Time,
Miner, Previous Hash — there is no `Version` line and the `Block` class has
no version attribute, while the claim (and the repository's own test
`test_block.py::test_block_to_str`, which calls the non-existent
`get_version()`) requires one. -/
theorem C8_block_hash_no_version_line :
    (∀ (sha256hex : String → String) (b : Block),
      b.getHash sha256hex = sha256hex b.blockToStr) ∧
    (∀ (b : Block) (sig' : String),
      Block.blockToStr { b with sig := sig' } = b.blockToStr) ∧
    (c8Block.headerLines =
      ["Index: 1", "Nonce: 0", "Bloom: bloom-bits",
       "Merkle Tree Root: rooothash", "Time: 2025-01-01 00:00:00",
       "Miner: miner-1", "Previous Hash: prevhash"]) ∧
    (∀ l ∈ c8Block.headerLines, l.data.take 7 ≠ "Version".data) := by
  refine ⟨fun _ _ => rfl, fun _ _ => rfl, by decide, by decide⟩

end EZchain

namespace EZchain

/-- Witness for C4 at `v = [0x10, 0x19]` (count 10, state `selected`),
`change = 3`. -/
theorem C4_split_value_correct_witness :
    (1 ≤ (10 : Nat)) ∧
    ((0 < (3 : Int) ∧ (3 : Int) < ((10 : Nat) : Int)) →
      ∃ keep chg,
        (Value.mk 16 10 .selected).splitValue 3 = .ok (keep, chg) ∧
        keep.beginIdx = 16 ∧
        keep.endIdx = 16 + 10 - (3 : Int).toNat - 1 ∧
        chg.beginIdx = keep.endIdx + 1 ∧
        chg.endIdx = (Value.mk 16 10 .selected).endIdx ∧
        keep.state = .selected ∧ chg.state = .selected ∧
        (∀ i, (Value.mk 16 10 .selected).memIv i ↔ (keep.memIv i ∨ chg.memIv i)) ∧
        (∀ i, ¬ (keep.memIv i ∧ chg.memIv i))) := by
  exact ⟨by norm_num, (C4_split_value_correct (Value.mk 16 10 .selected) 3 (by norm_num)).1⟩

end EZchain

namespace EZchain

/-! Transaction pool (src/EZ_Transaction_Pool/TransactionPool.py,
class MultiTxnsPool).  The SQLite persistence, the lock and the cleanup
thread are outside the in-memory behaviour the claim is about and are not
modelled; signature verification is abstracted by boolean verifier
parameters (`hasKey` is whether a `public_key_pem` was passed). -/

/-- A transaction as the pool reads it (sender and signature presence). -/
structure PTxn where
  pSender : String
  pSignature : Option Nat
deriving DecidableEq

/-- A `MultiTransactions` batch as the pool reads it (the pool accesses a
`sender_id` attribute on it). -/
structure MTxn where
  mtSender : String
  mtSenderId : String
  mtTime : String
  mtSignature : Option Nat
  mtDigest : Option String
  mtTxns : List PTxn
deriving DecidableEq

/-- The pool's statistics counters. -/
structure PoolStats where
  totalReceived : Nat
  validReceived : Nat
  invalidReceived : Nat
  duplicates : Nat
deriving DecidableEq

/-- The in-memory pool: entry list plus the two indexes and the stats. -/
structure MPool where
  pool : List MTxn
  senderIndex : List (String × List Nat)
  digestIndex : List (Option String × Nat)
  stats : PoolStats
deriving DecidableEq

/-- The result record of `validate_multi_transactions`. -/
structure ValidationResult where
  isValid : Bool
  errorMessage : String
  senderMatch : Bool
  signatureValid : Bool
  structuralValid : Bool
  duplicatesFound : List (Option String)
deriving DecidableEq

/-- Key membership in the digest index. -/
def MPool.digestKnown (p : MPool) (d : Option String) : Bool :=
  p.digestIndex.any (fun e => e.1 = d)

/-- `validate_multi_transactions` (TransactionPool.py lines 231-336),
ported check for check in order.  Error messages are kept except that the
per-transaction indices interpolated into some messages are dropped. -/
def MPool.validateMultiTransactions (p : MPool) (hasKey : Bool)
    (mSigOk : MTxn → Bool) (tSigOk : PTxn → Bool) (m : MTxn) :
    ValidationResult :=
  if m.mtTxns.isEmpty then
    ⟨false, "MultiTransactions cannot be empty", false, false, false, []⟩
  else if m.mtSender = "" ∨ m.mtSenderId = "" then
    ⟨false, "Missing sender or sender_id", false, false, false, []⟩
  else if ¬ m.mtTxns.all (fun t => t.pSender = (m.mtTxns.headD ⟨"", none⟩).pSender) then
    ⟨false, "Transaction has different sender", false, false, false, []⟩
  else if m.mtSignature.isNone then
    ⟨false, "MultiTransactions signature is missing", false, true, false, []⟩
  else if m.mtDigest.isNone then
    ⟨false, "MultiTransactions digest is missing", false, true, false, []⟩
  else if hasKey ∧ ¬ mSigOk m then
    ⟨false, "MultiTransactions signature verification failed", false, true, false, []⟩
  else
    match m.mtTxns.find? (fun t => t.pSignature.isNone ∨ (hasKey ∧ ¬ tSigOk t)) with
    | some t =>
      if t.pSignature.isNone then
        ⟨false, "Transaction signature is missing", true, true, false, []⟩
      else
        ⟨false, "Transaction signature verification failed", true, true, false, []⟩
    | none =>
      if p.digestKnown m.mtDigest then
        ⟨false, "Duplicate MultiTransactions found", true, true, false, [m.mtDigest]⟩
      else
        ⟨true, "", true, true, true, []⟩

/-- Appending an index entry to the sender index. -/
def addSenderIndex (si : List (String × List Nat)) (sid : String)
    (idx : Nat) : List (String × List Nat) :=
  if si.any (fun e => e.1 = sid) then
    si.map (fun e => if e.1 = sid then (e.1, e.2 ++ [idx]) else e)
  else
    si ++ [(sid, [idx])]

/-- `add_multi_transactions` (TransactionPool.py lines 338-376): validate,
bump `total_received`; on invalid bump `invalid_received` and return; on a
(dead-path) duplicate bump `duplicates`; otherwise append to the pool,
update both indexes and bump `valid_received`. -/
def MPool.addMultiTransactions (p : MPool) (hasKey : Bool)
    (mSigOk : MTxn → Bool) (tSigOk : PTxn → Bool) (m : MTxn) :
    Bool × String × MPool :=
  let vr := p.validateMultiTransactions hasKey mSigOk tSigOk m
  let p1 : MPool := { p with stats := { p.stats with
    totalReceived := p.stats.totalReceived + 1 } }
  if ¬ vr.isValid then
    (false, vr.errorMessage, { p1 with stats := { p1.stats with
      invalidReceived := p1.stats.invalidReceived + 1 } })
  else if p1.digestKnown m.mtDigest then
    (false, "Duplicate MultiTransactions", { p1 with stats := { p1.stats with
      duplicates := p1.stats.duplicates + 1 } })
  else
    let idx := p1.pool.length
    (true, "MultiTransactions added successfully",
      { pool := p1.pool ++ [m],
        senderIndex := addSenderIndex p1.senderIndex m.mtSenderId idx,
        digestIndex := p1.digestIndex ++ [(m.mtDigest, idx)],
        stats := { p1.stats with validReceived := p1.stats.validReceived + 1 } })

/-- A pool already holding one batch with digest `"d"`. -/
def c3Pool : MPool :=
  ⟨[⟨"alice", "sid", "t0", some 1, some "d", [⟨"alice", some 2⟩]⟩],
   [("sid", [0])], [(some "d", 0)], ⟨1, 1, 0, 0⟩⟩

/-- A second, otherwise valid batch carrying the same digest `"d"`. -/
def c3Dup : MTxn :=
  ⟨"alice", "sid", "t1", some 3, some "d", [⟨"alice", some 4⟩]⟩

/-- C3 fails on the code: admitting a batch whose digest is already in the
pool is rejected with the pool list and both indexes unchanged, but the
duplicate is caught by step 6 of `validate_multi_transactions`, so
`add_multi_transactions` bumps `invalid_received` (not `duplicates`, whose
dedicated branch is unreachable) and returns the validation message
"Duplicate MultiTransactions found".  The repository's own test
`test_multi_transactions_pool.py::test_add_multi_transactions_duplicate`
expects `duplicates = 1`, `invalid_received = 0` and the message
"Duplicate MultiTransactions". -/
theorem C3_pool_duplicate_counter_code_bug :
    (c3Pool.addMultiTransactions true (fun _ => true) (fun _ => true) c3Dup =
      (false, "Duplicate MultiTransactions found",
        ⟨c3Pool.pool, c3Pool.senderIndex, c3Pool.digestIndex, ⟨2, 1, 1, 0⟩⟩)) ∧
    ((c3Pool.addMultiTransactions true (fun _ => true) (fun _ => true)
        c3Dup).2.2.stats.duplicates = c3Pool.stats.duplicates) ∧
    ((c3Pool.addMultiTransactions true (fun _ => true) (fun _ => true)
        c3Dup).2.2.stats.invalidReceived =
      c3Pool.stats.invalidReceived + 1) ∧
    ((c3Pool.addMultiTransactions true (fun _ => true) (fun _ => true)
        c3Dup).2.2.pool.length = c3Pool.pool.length) := by
  refine ⟨by decide, by decide, by decide, by decide⟩

end EZchain

namespace EZchain

/-! Bloom filter (src/EZ_Block_Units/Bloom.py).  The bit array is a list of
booleans.  `compress` stores `zlib.compress(bit_array.tobytes())` in
base64; zlib-plus-base64 is a lossless byte coding, so the compressed
payload is modelled as the byte stream itself, and a byte stream is the bit
list padded with zero bits up to a byte boundary (`bitarray.tobytes` /
`bitarray.frombytes`).  `mmh3.hash(item, seed)` is abstracted as a function
parameter; Python's `%` on a positive modulus always lands in `[0, size)`,
which `Nat` `%` matches.  The decompression-failure fallback (corrupted
data) is unreachable under the lossless coding. -/

/-- The filter's mutable state. -/
structure Bloom where
  size : Nat
  hashCount : Nat
  compressed : Bool
  bitArray : Option (List Bool)
  compressedBitArray : Option (List Bool)
deriving DecidableEq

/-- `bitarray.tobytes`: pad with zero bits to a whole number of bytes. -/
def padToByte (l : List Bool) : List Bool :=
  l ++ List.replicate ((8 - l.length % 8) % 8) false

/-- The `BloomFilter(size, hash_count)` constructor, uncompressed mode:
all bits zero. -/
def Bloom.empty (size hashCount : Nat) : Bloom :=
  ⟨size, hashCount, false, some (List.replicate size false), none⟩

/-- `BloomFilter.compress` (Bloom.py lines 59-80). -/
def Bloom.compress (f : Bloom) : Bloom :=
  if f.compressed ∨ f.bitArray.isNone then f
  else
    { f with
      compressedBitArray := some (padToByte (f.bitArray.getD [])),
      bitArray := none,
      compressed := true }

/-- `BloomFilter.decompress` (Bloom.py lines 82-111). -/
def Bloom.decompress (f : Bloom) : Bloom :=
  if ¬ f.compressed ∨ f.compressedBitArray.isNone then f
  else
    { f with
      bitArray := some (f.compressedBitArray.getD []),
      compressedBitArray := none,
      compressed := false }

/-- `_ensure_uncompressed` (lines 49-52). -/
def Bloom.ensureUncompressed (f : Bloom) : Bloom :=
  if f.compressed then f.decompress else f

/-- The bit positions set/probed for an item: `mmh3.hash(item, i) % size`
for seeds `i < hash_count`. -/
def bitIndex (hashFn : String → Nat → Nat) (size : Nat) (item : String)
    (i : Nat) : Nat :=
  hashFn item i % size

/-- The `for ii in range(self.hash_count)` loop of `add`. -/
def setBitsFor (hashFn : String → Nat → Nat) (size : Nat) (item : String)
    (k : Nat) (l : List Bool) : List Bool :=
  (List.range k).foldl (fun acc i => acc.set (bitIndex hashFn size item i) true) l

/-- `BloomFilter.add` (lines 162-175): inflate if needed, set the `k` bit
positions of the item. -/
def Bloom.add (hashFn : String → Nat → Nat) (f : Bloom) (item : String) :
    Bloom :=
  { f.ensureUncompressed with
    bitArray := some (setBitsFor hashFn f.ensureUncompressed.size item
      f.ensureUncompressed.hashCount (f.ensureUncompressed.bitArray.getD [])) }

/-- `BloomFilter.__contains__` (lines 177-194): inflate if needed, report
whether all `k` bit positions are set; the inflated filter persists (the
query mutates storage), so the updated filter is returned too. -/
def Bloom.containsItem (hashFn : String → Nat → Nat) (f : Bloom)
    (item : String) : Bool × Bloom :=
  ((List.range f.ensureUncompressed.hashCount).all
      (fun i => (f.ensureUncompressed.bitArray.getD []).getD
        (bitIndex hashFn f.ensureUncompressed.size item i) false),
    f.ensureUncompressed)

/-- `BloomFilter.__iter__` (lines 44-47): inflate if needed, yield the bits. -/
def Bloom.iterBits (f : Bloom) : List Bool × Bloom :=
  (f.ensureUncompressed.bitArray.getD [], f.ensureUncompressed)

/-- Inserting a list of items into a fresh filter. -/
def bloomOfItems (hashFn : String → Nat → Nat) (size hashCount : Nat)
    (items : List String) : Bloom :=
  items.foldl (fun acc it => acc.add hashFn it) (Bloom.empty size hashCount)

/-- Helper: setting a bit makes `getD` read `true` there (in range). -/
lemma getD_set_self (l : List Bool) (j : Nat) (hj : j < l.length) :
    (l.set j true).getD j false = true := by
  induction l generalizing j with
  | nil => exact absurd hj (by simp)
  | cons a l ih =>
    cases j with
    | zero => rfl
    | succ j =>
      simp only [List.set, List.getD_cons_succ]
      exact ih j (by simpa using hj)

/-- Helper: setting a bit to `true` never clears another bit. -/
lemma getD_set_mono (l : List Bool) (i j : Nat)
    (h : l.getD i false = true) : (l.set j true).getD i false = true := by
  induction l generalizing i j with
  | nil => simpa using h
  | cons a l ih =>
    cases j with
    | zero =>
      cases i with
      | zero => rfl
      | succ i => simpa using h
    | succ j =>
      cases i with
      | zero => simpa using h
      | succ i =>
        simp only [List.set, List.getD_cons_succ] at h ⊢
        exact ih i j h

/-- Helper: unfolding one round of the bit-setting loop. -/
lemma setBitsFor_succ (hashFn : String → Nat → Nat) (size : Nat)
    (item : String) (k : Nat) (l : List Bool) :
    setBitsFor hashFn size item (k + 1) l =
      (setBitsFor hashFn size item k l).set (bitIndex hashFn size item k)
        true := by
  unfold setBitsFor
  rw [List.range_succ, List.foldl_append]
  rfl

/-- Helper: the bit-setting loop preserves the array length. -/
lemma setBitsFor_length (hashFn : String → Nat → Nat) (size : Nat)
    (item : String) (k : Nat) (l : List Bool) :
    (setBitsFor hashFn size item k l).length = l.length := by
  induction k with
  | zero => rfl
  | succ k ih =>
    rw [setBitsFor_succ, List.length_set]
    exact ih

/-- Helper: the bit-setting loop never clears a set bit. -/
lemma setBitsFor_mono (hashFn : String → Nat → Nat) (size : Nat)
    (item : String) (k : Nat) (l : List Bool) (i : Nat)
    (h : l.getD i false = true) :
    (setBitsFor hashFn size item k l).getD i false = true := by
  induction k with
  | zero => exact h
  | succ k ih =>
    rw [setBitsFor_succ]
    exact getD_set_mono _ _ _ ih

/-- Helper: after the loop, every probed position of the item is set. -/
lemma setBitsFor_sets (hashFn : String → Nat → Nat) (size : Nat)
    (item : String) (k : Nat) (l : List Bool) (i : Nat) (hik : i < k)
    (hlen : bitIndex hashFn size item i < l.length) :
    (setBitsFor hashFn size item k l).getD (bitIndex hashFn size item i)
      false = true := by
  induction k with
  | zero => exact absurd hik (by omega)
  | succ k ih =>
    rw [setBitsFor_succ]
    rcases Nat.lt_or_ge i k with hik' | hik'
    · exact getD_set_mono _ _ _ (ih hik')
    · have : i = k := by omega
      subst this
      apply getD_set_self
      rw [setBitsFor_length]
      exact hlen

/-- Well-formedness of a freshly built (uncompressed) filter. -/
def BloomWF (size k : Nat) (f : Bloom) : Prop :=
  f.size = size ∧ f.hashCount = k ∧ f.compressed = false ∧
  f.compressedBitArray = none ∧
  ∃ l, f.bitArray = some l ∧ l.length = size

lemma ensureUncompressed_of_uncompressed {f : Bloom}
    (hc : f.compressed = false) : f.ensureUncompressed = f := by
  unfold Bloom.ensureUncompressed
  rw [hc]
  rfl

lemma wf_empty (size k : Nat) : BloomWF size k (Bloom.empty size k) :=
  ⟨rfl, rfl, rfl, rfl, List.replicate size false, rfl, List.length_replicate ..⟩

lemma wf_add {size k : Nat} {f : Bloom} (hashFn : String → Nat → Nat)
    (x : String) (hf : BloomWF size k f) :
    BloomWF size k (f.add hashFn x) := by
  obtain ⟨h1, h2, h3, h4, l, h5, h6⟩ := hf
  unfold Bloom.add
  rw [ensureUncompressed_of_uncompressed h3]
  exact ⟨h1, h2, h3, h4, _, by rw [h5],
    by simpa [setBitsFor_length] using h6⟩

lemma wf_foldAdd {size k : Nat} (hashFn : String → Nat → Nat)
    (items : List String) {f : Bloom} (hf : BloomWF size k f) :
    BloomWF size k (items.foldl (fun acc it => acc.add hashFn it) f) := by
  induction items generalizing f with
  | nil => exact hf
  | cons y rest ih => exact ih (wf_add hashFn y hf)

lemma add_bits_mono {size k : Nat} {f : Bloom} (hashFn : String → Nat → Nat)
    (x : String) (hf : BloomWF size k f) (i : Nat)
    (h : (f.bitArray.getD []).getD i false = true) :
    ((f.add hashFn x).bitArray.getD []).getD i false = true := by
  obtain ⟨h1, h2, h3, h4, l, h5, h6⟩ := hf
  unfold Bloom.add
  rw [ensureUncompressed_of_uncompressed h3]
  simpa using setBitsFor_mono hashFn f.size x f.hashCount _ i h

lemma foldAdd_bits_mono {size k : Nat} (hashFn : String → Nat → Nat)
    (items : List String) {f : Bloom} (hf : BloomWF size k f) (i : Nat)
    (h : (f.bitArray.getD []).getD i false = true) :
    (((items.foldl (fun acc it => acc.add hashFn it) f)).bitArray.getD
      []).getD i false = true := by
  induction items generalizing f with
  | nil => exact h
  | cons y rest ih =>
    exact ih (wf_add hashFn y hf) (add_bits_mono hashFn y hf i h)

lemma foldAdd_sets {size k : Nat} (hashFn : String → Nat → Nat)
    (items : List String) {f : Bloom} (hf : BloomWF size k f)
    (hs : 0 < size) (x : String) (hx : x ∈ items) (i : Nat) (hik : i < k) :
    (((items.foldl (fun acc it => acc.add hashFn it) f)).bitArray.getD
      []).getD (bitIndex hashFn size x i) false = true := by
  induction items generalizing f with
  | nil => exact absurd hx (List.not_mem_nil x)
  | cons y rest ih =>
    rcases List.mem_cons.mp hx with rfl | hx'
    · apply foldAdd_bits_mono hashFn rest (wf_add hashFn x hf)
      obtain ⟨h1, h2, h3, h4, l, h5, h6⟩ := hf
      unfold Bloom.add
      rw [ensureUncompressed_of_uncompressed h3]
      simp only [h5, Option.getD_some, h1, h2]
      exact setBitsFor_sets hashFn size x k l i hik
        (by rw [h6]; exact Nat.mod_lt _ hs)
    · exact ih (wf_add hashFn y hf) hx'

lemma getD_padToByte (l : List Bool) (i : Nat) (hi : i < l.length) :
    (padToByte l).getD i false = l.getD i false := by
  unfold padToByte
  rw [List.getD_append _ _ _ _ hi]

lemma all_range_congr (k : Nat) (p q : Nat → Bool)
    (h : ∀ i, i < k → p i = q i) :
    (List.range k).all p = (List.range k).all q := by
  induction k with
  | zero => rfl
  | succ k ih =>
    rw [List.range_succ, List.all_append, List.all_append,
      ih (fun i hi => h i (by omega))]
    simp [h k (by omega)]

/-- C9: every item inserted into a Bloom filter is afterwards reported a
member (no false negatives), and a `compress`/`decompress` round trip of
the bit array preserves every membership answer. -/
theorem C9_bloom_no_false_negative_and_roundtrip
    (hashFn : String → Nat → Nat) (size k : Nat) (items : List String)
    (hs : 0 < size) :
    (∀ x ∈ items,
      ((bloomOfItems hashFn size k items).containsItem hashFn x).1 = true) ∧
    (∀ y,
      (((bloomOfItems hashFn size k items).compress.decompress).containsItem
          hashFn y).1 =
        ((bloomOfItems hashFn size k items).containsItem hashFn y).1) := by
  have hwf : BloomWF size k (bloomOfItems hashFn size k items) :=
    wf_foldAdd hashFn items (wf_empty size k)
  obtain ⟨h1, h2, h3, h4, l, h5, h6⟩ := hwf
  constructor
  · intro x hx
    unfold Bloom.containsItem
    rw [ensureUncompressed_of_uncompressed h3]
    dsimp only
    rw [List.all_eq_true]
    intro i hi
    rw [h2] at hi
    rw [h1]
    exact foldAdd_sets hashFn items (wf_empty size k) hs x hx i
      (List.mem_range.mp hi)
  · intro y
    have hcomp : (bloomOfItems hashFn size k items).compress =
        { bloomOfItems hashFn size k items with
          compressedBitArray := some (padToByte l),
          bitArray := none,
          compressed := true } := by
      unfold Bloom.compress
      rw [if_neg (by simp [h3, h5])]
      rw [h5]
      rfl
    have hdec : (bloomOfItems hashFn size k items).compress.decompress =
        { bloomOfItems hashFn size k items with
          bitArray := some (padToByte l),
          compressedBitArray := none,
          compressed := false } := by
      rw [hcomp]
      unfold Bloom.decompress
      rw [if_neg (by simp)]
      rfl
    rw [hdec]
    unfold Bloom.containsItem
    rw [ensureUncompressed_of_uncompressed (by rfl),
      ensureUncompressed_of_uncompressed h3]
    dsimp only
    simp only [h5, Option.getD_some]
    apply all_range_congr
    intro i _
    apply getD_padToByte
    rw [h6, h1]
    exact Nat.mod_lt _ hs

/-- A concrete hash-function stand-in for witnesses. -/
def c9Hash : String → Nat → Nat := fun s i => s.length + 3 * i

/-- Witness for C9 with size 8, 2 seeds, items `["ab", "c"]`. -/
theorem C9_bloom_witness :
    (0 < 8) ∧
    (((bloomOfItems c9Hash 8 2 ["ab", "c"]).containsItem c9Hash "c").1 =
      true) ∧
    ((((bloomOfItems c9Hash 8 2 ["ab", "c"]).compress.decompress).containsItem
        c9Hash "zz").1 =
      ((bloomOfItems c9Hash 8 2 ["ab", "c"]).containsItem c9Hash "zz").1) :=
  ⟨by norm_num,
   (C9_bloom_no_false_negative_and_roundtrip c9Hash 8 2 ["ab", "c"]
      (by norm_num)).1 "c" (by decide),
   (C9_bloom_no_false_negative_and_roundtrip c9Hash 8 2 ["ab", "c"]
      (by norm_num)).2 "zz"⟩

/-- C10: a membership query (or iteration) on a filter in compressed
storage decompresses it in place: afterwards `compressed` is `False`,
`compressed_bit_array` is `None` and `bit_array` holds the inflated bits;
every membership answer is unchanged, but the storage representation of
the filter is mutated by the pure query. -/
theorem C10_contains_decompresses_in_place
    (hashFn : String → Nat → Nat) (f : Bloom) (x : String) (d : List Bool)
    (hc : f.compressed = true) (hd : f.compressedBitArray = some d) :
    ((f.containsItem hashFn x).2.compressed = false) ∧
    ((f.containsItem hashFn x).2.compressedBitArray = none) ∧
    ((f.containsItem hashFn x).2.bitArray = some d) ∧
    ((f.containsItem hashFn x).2 ≠ f) ∧
    (∀ y, (((f.containsItem hashFn x).2).containsItem hashFn y).1 =
      (f.containsItem hashFn y).1) ∧
    (f.iterBits.1 = d ∧ f.iterBits.2 = (f.containsItem hashFn x).2) := by
  have hg : f.ensureUncompressed =
      { f with
        bitArray := some d,
        compressedBitArray := none,
        compressed := false } := by
    unfold Bloom.ensureUncompressed Bloom.decompress
    rw [hc, hd]
    simp
  refine ⟨?_, ?_, ?_, ?_, ?_, ?_, ?_⟩
  · unfold Bloom.containsItem
    dsimp only
    rw [hg]
  · unfold Bloom.containsItem
    dsimp only
    rw [hg]
  · unfold Bloom.containsItem
    dsimp only
    rw [hg]
  · unfold Bloom.containsItem
    dsimp only
    intro heq
    rw [hg] at heq
    have hcc := congrArg Bloom.compressed heq
    simp only at hcc
    rw [hc] at hcc
    exact Bool.false_ne_true hcc
  · intro y
    unfold Bloom.containsItem
    dsimp only
    rw [hg, ensureUncompressed_of_uncompressed rfl]
  · unfold Bloom.iterBits
    dsimp only
    rw [hg]
    rfl
  · unfold Bloom.iterBits Bloom.containsItem
    dsimp only

/-- A concrete compressed filter for the C10 witness. -/
def c10Filter : Bloom :=
  ⟨8, 2, true, none,
   some [false, true, false, false, true, false, false, false]⟩

/-- Witness for C10 at the concrete compressed filter. -/
theorem C10_contains_decompresses_witness :
    ((c10Filter.containsItem c9Hash "q").2.compressed = false) ∧
    ((c10Filter.containsItem c9Hash "q").2.compressedBitArray = none) ∧
    ((c10Filter.containsItem c9Hash "q").2.bitArray =
      some [false, true, false, false, true, false, false, false]) ∧
    ((c10Filter.containsItem c9Hash "q").2 ≠ c10Filter) ∧
    (∀ y, (((c10Filter.containsItem c9Hash "q").2).containsItem c9Hash y).1 =
      (c10Filter.containsItem c9Hash y).1) ∧
    (c10Filter.iterBits.1 =
      [false, true, false, false, true, false, false, false] ∧
     c10Filter.iterBits.2 = (c10Filter.containsItem c9Hash "q").2) :=
  C10_contains_decompresses_in_place c9Hash c10Filter "q"
    [false, true, false, false, true, false, false, false] rfl rfl

end EZchain

namespace EZchain

/-! Merkle tree (src/EZ_Block_Units/MerkleTree.py) and proof verification
(src/EZ_Block_Units/MerkleProof.py).  `sha256_hash` (hex digest of a
string) is abstracted as a function parameter; an internal node's value is
`hash (left.value ++ right.value)` (Python string `+` of the digests).
`build_tree`'s queue loop processes `len // 2` front pairs per round,
appending each combined node at the back, then moves an odd leftover from
the front to the back: one round is `pairOnce`, iterated by `buildLoop`
until one node is left.  The per-leaf proof lists built through the
`father` pointers are `[leaf.value, sib₁, parent₁, …, root]`; `proofsAux`
produces exactly these, paired with the leaf's payload, in the final
tree's left-to-right leaf order (the queue discipline keeps that order
equal to the input order, proved via `contents`).  The genesis mode
(`is_genesis_block=True`, no pairing) is not involved in the claim. -/

/-- A node of the tree: leaves carry their payload (`content`). -/
inductive MTree where
  | leaf (value : String) (content : String)
  | node (l r : MTree) (value : String)
deriving DecidableEq

/-- The stored hash value of a node. -/
def MTree.value : MTree → String
  | .leaf v _ => v
  | .node _ _ v => v

/-- One round's combined nodes: the `for i in range(length // 2)` loop. -/
def combinePairs (hash : String → String) : List MTree → List MTree
  | [] => []
  | [_] => []
  | a :: b :: rest =>
    .node a b (hash (a.value ++ b.value)) :: combinePairs hash rest

/-- The element left unpaired by a round (the odd one), if any. -/
def leftoverOf : List MTree → List MTree
  | [] => []
  | [x] => [x]
  | _ :: _ :: rest => leftoverOf rest

/-- One round of the `while len(leaves) > 1` loop: combined nodes are
appended behind, and `if length % 2 == 1` the leftover is rotated from the
front to the back — which puts it after the combined nodes. -/
def pairOnce (hash : String → String) (q : List MTree) : List MTree :=
  combinePairs hash q ++ leftoverOf q

lemma combinePairs_length (hash : String → String) :
    ∀ q : List MTree, (combinePairs hash q).length = q.length / 2
  | [] => rfl
  | [_] => by simp [combinePairs]
  | a :: b :: rest => by
    simp only [combinePairs, List.length_cons,
      combinePairs_length hash rest]
    omega

lemma leftoverOf_length :
    ∀ q : List MTree, (leftoverOf q).length = q.length % 2
  | [] => rfl
  | [_] => by simp [leftoverOf]
  | a :: b :: rest => by
    simp only [leftoverOf, List.length_cons, leftoverOf_length rest]
    omega

lemma pairOnce_length (hash : String → String) (q : List MTree) :
    (pairOnce hash q).length = q.length / 2 + q.length % 2 := by
  simp [pairOnce, combinePairs_length, leftoverOf_length]

/-- The `while len(leaves) > 1` loop of `build_tree`; `none` only on an
empty queue. -/
def buildLoop (hash : String → String) (q : List MTree) : Option MTree :=
  match q with
  | [] => none
  | [t] => some t
  | a :: b :: rest => buildLoop hash (pairOnce hash (a :: b :: rest))
termination_by q.length
decreasing_by
  simp only [pairOnce_length, List.length_cons]
  omega

/-- `MerkleTree.build_tree` over the payloads (non-genesis): leaves hold
`sha256_hash(payload)`. -/
def buildTree (hash : String → String) (payloads : List String) :
    Option MTree :=
  buildLoop hash (payloads.map (fun c => MTree.leaf (hash c) c))

/-- Hash-wellformedness of a tree: every internal value is the hash of the
concatenation of its children's values (as `build_tree` constructs them). -/
def MTree.wfT (hash : String → String) : MTree → Prop
  | .leaf v c => v = hash c
  | .node l r v =>
    v = hash (l.value ++ r.value) ∧ l.wfT hash ∧ r.wfT hash

/-- The payloads of a tree's leaves, in left-to-right order. -/
def MTree.contents : MTree → List String
  | .leaf _ c => [c]
  | .node l r _ => l.contents ++ r.contents

/-- All leaf payloads in a queue, in order. -/
def queueContents (q : List MTree) : List String :=
  (q.map MTree.contents).flatten

/-- The `(payload, proof)` pairs emitted for every leaf under a node,
given the proof suffix accumulated from the node's ancestors:
`prf_list[i] = [leaf.value] ++ [sibling, father]…` up to the root. -/
def proofsAux : MTree → List String → List (String × List String)
  | .leaf v c, suffix => [(c, v :: suffix)]
  | .node l r v, suffix =>
    proofsAux l (r.value :: v :: suffix) ++ proofsAux r (l.value :: v :: suffix)

/-- The proof list of `build_tree` (leaf-indexed, in input order). -/
def treeProofs (hash : String → String) (payloads : List String) :
    List (String × List String) :=
  match buildTree hash payloads with
  | none => []
  | some t => proofsAux t []

/-- The pair-chasing loop of `check_prf` (MerkleProof.py lines 40-56): for
each `(sibling, parent)` pair, the parent must be the hash of the current
digest and the sibling in one of the two orders; the final
`current_hash == mt_prf_list[-1]` check of the source is subsumed: when
every pair matches, the loop ends with `current = parent = mt_prf_list[-1]`
(the list past the head is consumed in whole pairs), and when a pair fails
the flag is already false. -/
def chainCheck (hash : String → String) : String → List String → Bool
  | _, [] => true
  | _, [_] => false
  | cur, sib :: parent :: rest =>
    (decide (hash (cur ++ sib) = parent) ||
     decide (hash (sib ++ cur) = parent)) &&
    chainCheck hash parent rest

/-- `MerkleTreeProof.check_prf` (MerkleProof.py lines 13-62). -/
def checkPrf (hash : String → String) (prf : List String) (payload : String)
    (root : String) : Bool :=
  if prf.length = 0 then false
  else if prf.length = 1 then
    decide (hash payload = prf.headD "" ∧ root = prf.headD "")
  else if prf.length % 2 ≠ 1 then false
  else
    decide (hash payload = prf.headD "") &&
    decide (prf.getLastD "" = root) &&
    chainCheck hash (hash payload) prf.tail

/-- Leftover elements come from the queue. -/
lemma leftoverOf_subset : ∀ (q : List MTree) (t : MTree),
    t ∈ leftoverOf q → t ∈ q
  | [], t, ht => absurd ht (List.not_mem_nil t)
  | [x], t, ht => by simpa [leftoverOf] using ht
  | a :: b :: rest, t, ht => by
    simp only [leftoverOf] at ht
    exact List.mem_cons_of_mem a (List.mem_cons_of_mem b
      (leftoverOf_subset rest t ht))

/-- Wellformedness is preserved by one pairing round. -/
lemma wfT_combinePairs (hash : String → String) :
    ∀ q : List MTree, (∀ t ∈ q, t.wfT hash) →
      ∀ t ∈ combinePairs hash q, t.wfT hash
  | [], _, t, ht => absurd ht (List.not_mem_nil t)
  | [x], _, t, ht => by simp [combinePairs] at ht
  | a :: b :: rest, hq, t, ht => by
    simp only [combinePairs, List.mem_cons] at ht
    rcases ht with rfl | ht
    · exact ⟨rfl, hq a (by simp), hq b (by simp)⟩
    · exact wfT_combinePairs hash rest
        (fun u hu => hq u (List.mem_cons_of_mem a (List.mem_cons_of_mem b hu)))
        t ht

lemma wfT_pairOnce (hash : String → String) (q : List MTree)
    (hq : ∀ t ∈ q, t.wfT hash) : ∀ t ∈ pairOnce hash q, t.wfT hash := by
  intro t ht
  rcases List.mem_append.mp ht with ht | ht
  · exact wfT_combinePairs hash q hq t ht
  · exact hq t (leftoverOf_subset q t ht)

/-- The leaf payloads of a queue are unchanged by a pairing round. -/
lemma queueContents_pairOnce (hash : String → String) :
    ∀ q : List MTree, queueContents (pairOnce hash q) = queueContents q
  | [] => rfl
  | [x] => rfl
  | a :: b :: rest => by
    have ih := queueContents_pairOnce hash rest
    simp only [pairOnce, combinePairs, leftoverOf, queueContents,
      List.map_cons, List.map_append, List.flatten_cons, List.flatten_append,
      MTree.contents, List.append_assoc] at ih ⊢
    rw [ih]

/-- The tree returned by the loop is hash-wellformed. -/
lemma buildLoop_wfT (hash : String → String) :
    ∀ (n : Nat) (q : List MTree), q.length ≤ n →
      (∀ t ∈ q, t.wfT hash) → ∀ t, buildLoop hash q = some t →
        t.wfT hash := by
  intro n
  induction n with
  | zero =>
    intro q hq hwf t ht
    match q with
    | [] => simp [buildLoop] at ht
    | a :: q' => simp at hq
  | succ n ih =>
    intro q hq hwf t ht
    match q with
    | [] => simp [buildLoop] at ht
    | [u] =>
      rw [buildLoop] at ht
      rw [Option.some_inj] at ht
      subst ht
      exact hwf u (by simp)
    | a :: b :: rest =>
      rw [buildLoop] at ht
      refine ih (pairOnce hash (a :: b :: rest)) ?_
        (wfT_pairOnce hash _ hwf) t ht
      rw [pairOnce_length]
      simp only [List.length_cons] at hq ⊢
      omega

/-- The leaf payloads of the returned tree are the queue's payloads. -/
lemma buildLoop_contents (hash : String → String) :
    ∀ (n : Nat) (q : List MTree), q.length ≤ n →
      ∀ t, buildLoop hash q = some t → t.contents = queueContents q := by
  intro n
  induction n with
  | zero =>
    intro q hq t ht
    match q with
    | [] => simp [buildLoop] at ht
    | a :: q' => simp at hq
  | succ n ih =>
    intro q hq t ht
    match q with
    | [] => simp [buildLoop] at ht
    | [u] =>
      rw [buildLoop] at ht
      rw [Option.some_inj] at ht
      subst ht
      simp [queueContents]
    | a :: b :: rest =>
      rw [buildLoop] at ht
      rw [ih (pairOnce hash (a :: b :: rest)) ?_ t ht,
        queueContents_pairOnce]
      rw [pairOnce_length]
      simp only [List.length_cons] at hq ⊢
      omega

/-- The payloads paired with the proofs are the leaf payloads in order. -/
lemma proofsAux_fst : ∀ (t : MTree) (suffix : List String),
    (proofsAux t suffix).map Prod.fst = t.contents
  | .leaf v c, suffix => rfl
  | .node l r v, suffix => by
    simp only [proofsAux, MTree.contents, List.map_append,
      proofsAux_fst l _, proofsAux_fst r _]

/-- Chain soundness: if the suffix chains correctly from the node's value,
then each emitted proof under the node chains correctly from its leaf
digest. -/
lemma proofsAux_chain (hash : String → String) :
    ∀ (t : MTree) (suffix : List String) (c : String) (p : List String),
      t.wfT hash → chainCheck hash t.value suffix = true →
      (c, p) ∈ proofsAux t suffix →
      ∃ rest, p = hash c :: rest ∧ chainCheck hash (hash c) rest = true
  | .leaf v c', suffix, c, p, hwf, hchain, hmem => by
    simp only [proofsAux, List.mem_singleton, Prod.mk.injEq] at hmem
    obtain ⟨rfl, rfl⟩ := hmem
    simp only [MTree.wfT] at hwf
    subst hwf
    exact ⟨suffix, rfl, hchain⟩
  | .node l r v, suffix, c, p, hwf, hchain, hmem => by
    obtain ⟨hv, hwl, hwr⟩ := hwf
    simp only [proofsAux, List.mem_append] at hmem
    rcases hmem with hmem | hmem
    · refine proofsAux_chain hash l (r.value :: v :: suffix) c p hwl ?_ hmem
      simp only [chainCheck, Bool.and_eq_true, Bool.or_eq_true,
        decide_eq_true_eq]
      exact ⟨Or.inl hv.symm, hchain⟩
    · refine proofsAux_chain hash r (l.value :: v :: suffix) c p hwr ?_ hmem
      simp only [chainCheck, Bool.and_eq_true, Bool.or_eq_true,
        decide_eq_true_eq]
      exact ⟨Or.inr hv.symm, hchain⟩

/-- The last element of every emitted proof is the last of
`node value :: suffix` (at the top level: the root hash). -/
lemma proofsAux_getLast : ∀ (t : MTree) (suffix : List String) (c : String)
    (p : List String), (c, p) ∈ proofsAux t suffix →
      p.getLast? = (t.value :: suffix).getLast?
  | .leaf v c', suffix, c, p, hmem => by
    simp only [proofsAux, List.mem_singleton, Prod.mk.injEq] at hmem
    obtain ⟨rfl, rfl⟩ := hmem
    rfl
  | .node l r v, suffix, c, p, hmem => by
    simp only [proofsAux, List.mem_append] at hmem
    rcases hmem with hmem | hmem
    · rw [proofsAux_getLast l _ c p hmem]
      rw [List.getLast?_cons_cons, List.getLast?_cons_cons]
      rfl
    · rw [proofsAux_getLast r _ c p hmem]
      rw [List.getLast?_cons_cons, List.getLast?_cons_cons]
      rfl

/-- Every emitted proof has odd length (pairs plus the leaf digest). -/
lemma proofsAux_parity : ∀ (t : MTree) (suffix : List String) (c : String)
    (p : List String), suffix.length % 2 = 0 →
      (c, p) ∈ proofsAux t suffix → p.length % 2 = 1
  | .leaf v c', suffix, c, p, hs, hmem => by
    simp only [proofsAux, List.mem_singleton, Prod.mk.injEq] at hmem
    obtain ⟨rfl, rfl⟩ := hmem
    simp only [List.length_cons]
    omega
  | .node l r v, suffix, c, p, hs, hmem => by
    simp only [proofsAux, List.mem_append] at hmem
    rcases hmem with hmem | hmem
    · exact proofsAux_parity l _ c p (by simp; omega) hmem
    · exact proofsAux_parity r _ c p (by simp; omega) hmem

/-- Soundness at the root: every `(payload, proof)` pair emitted for a
wellformed tree passes `check_prf` against the tree's root value. -/
lemma proofsAux_accepted (hash : String → String) (t : MTree)
    (hwf : t.wfT hash) (c : String) (p : List String)
    (hmem : (c, p) ∈ proofsAux t []) :
    checkPrf hash p c t.value = true := by
  obtain ⟨rest, hp, hchain⟩ :=
    proofsAux_chain hash t [] c p hwf rfl hmem
  have hlast : p.getLast? = some t.value := proofsAux_getLast t [] c p hmem
  have hodd : p.length % 2 = 1 := proofsAux_parity t [] c p rfl hmem
  subst hp
  by_cases h1 : rest = []
  · subst h1
    have : t.value = hash c := by
      have h' : hash c = t.value := by simpa using hlast
      exact h'.symm
    unfold checkPrf
    rw [if_neg (by simp), if_pos (by simp)]
    simp [this]
  · have hlen2 : ¬ (hash c :: rest).length = 1 := by
      simp only [List.length_cons]
      have := List.length_pos.mpr h1
      omega
    unfold checkPrf
    rw [if_neg (by simp), if_neg hlen2, if_neg (by omega)]
    simp only [List.headD_cons, List.tail_cons, Bool.and_eq_true,
      decide_eq_true_eq]
    refine ⟨⟨by simp, ?_⟩, hchain⟩
    rw [List.getLastD_eq_getLast?, hlast]
    rfl

/-- The loop returns a tree whenever the queue is non-empty. -/
lemma buildLoop_isSome (hash : String → String) :
    ∀ (n : Nat) (q : List MTree), q.length ≤ n → q ≠ [] →
      ∃ t, buildLoop hash q = some t := by
  intro n
  induction n with
  | zero =>
    intro q hq hne
    match q with
    | [] => exact absurd rfl hne
    | a :: q' => simp at hq
  | succ n ih =>
    intro q hq hne
    match q with
    | [] => exact absurd rfl hne
    | [u] => exact ⟨u, by rw [buildLoop]⟩
    | a :: b :: rest =>
      rw [buildLoop]
      refine ih (pairOnce hash (a :: b :: rest)) ?_ ?_
      · rw [pairOnce_length]
        simp only [List.length_cons] at hq ⊢
        omega
      · have : (pairOnce hash (a :: b :: rest)).length ≠ 0 := by
          rw [pairOnce_length]
          simp only [List.length_cons]
          omega
        intro hcon
        rw [hcon] at this
        exact this rfl

/-- The payloads of the initial leaf queue are the payloads themselves. -/
lemma queueContents_leaves (hash : String → String) :
    ∀ payloads : List String,
      queueContents (payloads.map (fun c => MTree.leaf (hash c) c)) =
        payloads
  | [] => rfl
  | c :: rest => by
    have ih := queueContents_leaves hash rest
    simp only [queueContents, List.map_cons, List.flatten_cons,
      MTree.contents] at ih ⊢
    rw [ih]
    rfl

/-- C7: for every non-empty payload list, the tree built by `build_tree`
exists and, for each leaf index `i`, the emitted proof (whose recorded
payload is `payloads[i]`) is accepted by `check_prf` against the root
hash; a proof of length 1 is accepted iff
`leaf_hash = root = sha256_hash(payload)`; and any even-length proof is
rejected. -/
theorem C7_merkle_soundness (hash : String → String)
    (payloads : List String) (hne : payloads ≠ []) :
    (∃ t, buildTree hash payloads = some t ∧
      (treeProofs hash payloads).map Prod.fst = payloads ∧
      (∀ i, i < payloads.length →
        checkPrf hash ((treeProofs hash payloads).getD i ("", [])).2
          (payloads.getD i "") t.value = true)) ∧
    (∀ x payload root : String,
      checkPrf hash [x] payload root = true ↔
        (hash payload = x ∧ root = x)) ∧
    (∀ (prf : List String) (payload root : String), prf.length % 2 = 0 →
      checkPrf hash prf payload root = false) := by
  refine ⟨?_, ?_, ?_⟩
  · obtain ⟨t, ht⟩ := buildLoop_isSome hash
      (payloads.map (fun c => MTree.leaf (hash c) c)).length
      (payloads.map (fun c => MTree.leaf (hash c) c)) le_rfl
      (by simpa using hne)
    refine ⟨t, ht, ?_, ?_⟩
    · unfold treeProofs buildTree
      rw [ht]
      rw [proofsAux_fst]
      rw [buildLoop_contents hash _ _ le_rfl t ht]
      exact queueContents_leaves hash payloads
    · intro i hi
      have hwf : t.wfT hash := by
        refine buildLoop_wfT hash _ _ le_rfl ?_ t ht
        intro u hu
        obtain ⟨c, _, rfl⟩ := List.mem_map.mp hu
        rfl
      have hproofs : treeProofs hash payloads = proofsAux t [] := by
        unfold treeProofs buildTree
        rw [ht]
      have hmapfst : (treeProofs hash payloads).map Prod.fst = payloads := by
        rw [hproofs, proofsAux_fst,
          buildLoop_contents hash _ _ le_rfl t ht]
        exact queueContents_leaves hash payloads
      have hlen := congrArg List.length hmapfst
      rw [List.length_map] at hlen
      have hi' : i < (treeProofs hash payloads).length := by omega
      obtain ⟨cp, hcp⟩ : ∃ cp, (treeProofs hash payloads)[i]? = some cp := by
        rw [List.getElem?_eq_getElem hi']
        exact ⟨_, rfl⟩
      have hmem : cp ∈ treeProofs hash payloads := List.getElem?_mem hcp
      have hfst : payloads.getD i "" = cp.1 := by
        have h2 : payloads[i]? = some cp.1 := by
          rw [← hmapfst, List.getElem?_map, hcp]
          rfl
        rw [List.getD_eq_getElem?_getD, h2]
        rfl
      have hgetd : (treeProofs hash payloads).getD i ("", []) = cp := by
        rw [List.getD_eq_getElem?_getD, hcp]
        rfl
      rw [hgetd, hfst]
      rw [hproofs] at hmem
      exact proofsAux_accepted hash t hwf cp.1 cp.2
        (by rw [Prod.mk.eta]; exact hmem)
  · intro x payload root
    unfold checkPrf
    rw [if_neg (by simp), if_pos (by simp)]
    simp
  · intro prf payload root hev
    unfold checkPrf
    by_cases h0 : prf.length = 0
    · rw [if_pos h0]
    · rw [if_neg h0, if_neg (by omega), if_pos (by omega)]

/-- A concrete hash stand-in for the C7 witness. -/
def c7Hash : String → String := fun s => "#" ++ s

/-- Witness for C7 on the three payloads `["p", "q", "r"]`. -/
theorem C7_merkle_soundness_witness :
    (∃ t, buildTree c7Hash ["p", "q", "r"] = some t ∧
      (treeProofs c7Hash ["p", "q", "r"]).map Prod.fst = ["p", "q", "r"] ∧
      (∀ i, i < (["p", "q", "r"] : List String).length →
        checkPrf c7Hash
          ((treeProofs c7Hash ["p", "q", "r"]).getD i ("", [])).2
          ((["p", "q", "r"] : List String).getD i "") t.value = true)) ∧
    (∀ x payload root : String,
      checkPrf c7Hash [x] payload root = true ↔
        (c7Hash payload = x ∧ root = x)) ∧
    (∀ (prf : List String) (payload root : String), prf.length % 2 = 0 →
      checkPrf c7Hash prf payload root = false) :=
  C7_merkle_soundness c7Hash ["p", "q", "r"] (by decide)

end EZchain

namespace EZchain

/-! Value picker (src/EZ_Value/AccountPickValues.py) on top of the
collection (src/EZ_Value/AccountValueCollection.py).  `find_by_state`
iterates the state index; the spec fixes insertion order, which the list
order models.  `uuid4` node ids are modelled by a fresh id above every
existing one.  The `Transaction` objects assembled around the selected
values carry exactly the returned lists and are not separately modelled;
the picker's value bookkeeping is.  Python returns the very `Value`
objects whose states the collection mutates through aliasing, so the
returned lists are read back from the final collection (`refreshed`). -/

/-- Sum of the `value_num`s of a list of values. -/
def sumNums (vs : List Value) : Nat :=
  (vs.map (·.valueNum)).sum

/-- Disjointness of two value intervals. -/
def Value.disj (a b : Value) : Prop :=
  a.endIdx < b.beginIdx ∨ b.endIdx < a.beginIdx

/-- Equality of the interval data (what `is_same_value` compares; the
state is not part of it). -/
def rangeEq (a b : Value) : Prop :=
  a.beginIdx = b.beginIdx ∧ a.valueNum = b.valueNum

/-- Account integrity (the `validate_no_overlap` invariant plus the
constructor's guarantees): unique node ids, positive counts, pairwise
disjoint intervals. -/
def collWF (c : AVColl) : Prop :=
  (c.nodes.map (·.nodeId)).Nodup ∧
  (∀ n ∈ c.nodes, 1 ≤ n.val.valueNum) ∧
  c.nodes.Pairwise (fun a b => Value.disj a.val b.val)

/-- `AccountPickValues._find_node_by_value`: first node whose value has
the same interval data. -/
def findNodeByValue (c : AVColl) (target : Value) : Option Nat :=
  (c.nodes.find? (fun n => n.val.isSameValue target)).map (·.nodeId)

/-- `AccountPickValues._update_value_state`: locate by value, then update
that node's state (no-op when the value is not found). -/
def updateByValue (c : AVColl) (v : Value) (s : ValueState) : AVColl :=
  match findNodeByValue c v with
  | some nid => (c.updateValueState nid s).2
  | none => c

/-- A fresh node id (`uuid4` yields an id unused in the collection). -/
def freshId (c : AVColl) : Nat :=
  (c.nodes.map (·.nodeId)).foldr max 0 + 1

/-- Replacing the (first) node with the given id by the kept half and
inserting the change half right after it, as
`AccountValueCollection.split_value` does on the linked list. -/
def insertSplit (nid fresh : Nat) (v1 v2 : Value) : List VNode → List VNode
  | [] => []
  | m :: rest =>
    if m.nodeId = nid then ⟨m.nodeId, v1⟩ :: ⟨fresh, v2⟩ :: rest
    else m :: insertSplit nid fresh v1 v2 rest

/-- `AccountValueCollection.split_value` (lines 123-158): `(None, None)`
on an unknown id or an out-of-range `change`; otherwise the node's value
becomes `v1` and a new node carrying `v2` is inserted after it. -/
def collSplit (c : AVColl) (nid : Nat) (change : Int) :
    Option Value × Option Value × AVColl :=
  match c.nodes.find? (fun n => n.nodeId = nid) with
  | none => (none, none, c)
  | some n =>
    if change ≤ 0 ∨ (n.val.valueNum : Int) ≤ change then (none, none, c)
    else
      match n.val.splitValue change with
      | .error _ => (none, none, c)
      | .ok (v1, v2) =>
        (some v1, some v2, ⟨insertSplit nid (freshId c) v1 v2 c.nodes⟩)

/-- The greedy loop of `pick_values_for_transaction`: take available
values in order until the running total reaches the required amount. -/
def greedySelect : List Value → Nat → Nat → List Value
  | [], _, _ => []
  | v :: rest, req, tot =>
    if req ≤ tot then [] else v :: greedySelect rest req (tot + v.valueNum)

/-- Reading a returned `Value` object back through the collection (the
Python objects are aliased into the collection nodes, so their observable
state is the matching node's). -/
def refreshed (c : AVColl) (v : Value) : Value :=
  match c.nodes.find? (fun n => n.val.isSameValue v) with
  | some n => n.val
  | none => v

/-- The state of the node carrying the given interval, if any. -/
def stateByRange (c : AVColl) (v : Value) : Option ValueState :=
  (c.nodes.find? (fun n => n.val.isSameValue v)).map (·.val.state)

/-- Setting a list of values to a state, one `_update_value_state` at a
time (the final loop of the picker, and the commit/confirm/rollback
helpers). -/
def applyStates (c : AVColl) (vs : List Value) (s : ValueState) : AVColl :=
  vs.foldl (fun acc v => updateByValue acc v s) c

/-- `AccountPickValues.rollback_transaction_selection`: every value back
to `UNSPENT`. -/
def rollbackSelection (c : AVColl) (vs : List Value) : AVColl :=
  applyStates c vs .unspent

/-- Errors of `pick_values_for_transaction`. -/
inductive PickErr where
  | invalidArgument
  | insufficientFunds
deriving DecidableEq

/-- The picker's `available_values` (the `Unspent` set, insertion order). -/
def availOf (c : AVColl) : List Value :=
  c.findByState .unspent

/-- The picker's greedy `selected_values` before any split. -/
def selOf (c : AVColl) (req : Nat) : List Value :=
  greedySelect (availOf c) req 0

/-- The change-splitting step of `pick_values_for_transaction` (lines
59-108): when the running total strictly exceeds the requirement, the last
selected value's node is split, the selection's last entry is replaced by
the kept half, and the change half is set to `SELECTED`; otherwise the
selection stands as is.  Returns (selection, change, collection). -/
def pickStep (c : AVColl) (req : Nat) : List Value × Option Value × AVColl :=
  if 0 < sumNums (selOf c req) - req ∧ selOf c req ≠ [] then
    match findNodeByValue c ((selOf c req).getLastD ⟨0, 1, .unspent⟩) with
    | some nid =>
      match collSplit c nid ((sumNums (selOf c req) - req : Nat) : Int) with
      | (some v1, some v2, c') =>
        ((selOf c req).dropLast ++ [v1], some v2, updateByValue c' v2 .selected)
      | (_, _, c') => (selOf c req, none, c')
    | none => (selOf c req, none, c)
  else (selOf c req, none, c)

/-- The collection after the final `for value in selected_values` loop
marking every selected value `SELECTED`. -/
def pickFinalColl (c : AVColl) (req : Nat) : AVColl :=
  applyStates (pickStep c req).2.2 (pickStep c req).1 .selected

/-- `AccountPickValues.pick_values_for_transaction` (lines 26-114),
restricted to its value bookkeeping: the returned selected values, the
change value, and the updated collection (the returned `Value` objects are
aliases of the mutated collection entries, hence read back through
`refreshed`). -/
def pickValues (c : AVColl) (required : Int) :
    Except PickErr (List Value × Option Value × AVColl) :=
  if required < 1 then .error .invalidArgument
  else if sumNums (selOf c required.toNat) < required.toNat then
    .error .insufficientFunds
  else
    .ok ((pickStep c required.toNat).1.map
        (refreshed (pickFinalColl c required.toNat)),
      (pickStep c required.toNat).2.1.map
        (refreshed (pickFinalColl c required.toNat)),
      pickFinalColl c required.toNat)

lemma sumNums_cons (v : Value) (l : List Value) :
    sumNums (v :: l) = v.valueNum + sumNums l := by
  simp [sumNums]

lemma sumNums_append (l₁ l₂ : List Value) :
    sumNums (l₁ ++ l₂) = sumNums l₁ + sumNums l₂ := by
  simp [sumNums]

lemma getLastD_of_ne_nil : ∀ (l : List Value) (d d' : Value), l ≠ [] →
    l.getLastD d = l.getLastD d'
  | [x], _, _, _ => rfl
  | x :: y :: rest, d, d', _ =>
    getLastD_of_ne_nil (y :: rest) x x (by simp)

lemma dropLast_append_getLastD : ∀ (l : List Value) (d : Value), l ≠ [] →
    l.dropLast ++ [l.getLastD d] = l
  | [x], d, _ => rfl
  | x :: y :: rest, d, _ => by
    have ih := dropLast_append_getLastD (y :: rest) x (by simp)
    simp only [List.dropLast_cons₂, List.cons_append]
    rw [show (x :: y :: rest : List Value).getLastD d =
      (y :: rest).getLastD x from rfl, ih]

lemma greedy_front : ∀ (l : List Value) (req tot : Nat),
    greedySelect l req tot <+: l
  | [], _, _ => List.nil_prefix
  | v :: rest, req, tot => by
    unfold greedySelect
    split
    · exact List.nil_prefix
    · exact List.cons_prefix_cons.mpr
        ⟨rfl, greedy_front rest req (tot + v.valueNum)⟩

lemma greedy_sum : ∀ (l : List Value) (req tot : Nat),
    req ≤ sumNums l + tot → req ≤ sumNums (greedySelect l req tot) + tot
  | [], req, tot, h => h
  | v :: rest, req, tot, h => by
    unfold greedySelect
    split
    · rename_i hle
      simpa [sumNums] using hle
    · rename_i hlt
      have ih := greedy_sum rest req (tot + v.valueNum)
        (by rw [sumNums_cons] at h; omega)
      rw [sumNums_cons]
      omega

lemma greedy_dropLast : ∀ (l : List Value) (req tot : Nat),
    greedySelect l req tot ≠ [] →
      tot + sumNums (greedySelect l req tot).dropLast < req
  | [], req, tot, h => absurd rfl h
  | v :: rest, req, tot, h => by
    unfold greedySelect at h ⊢
    split at h
    · exact absurd rfl h
    · rename_i hlt
      rw [if_neg hlt]
      by_cases hsel : greedySelect rest req (tot + v.valueNum) = []
      · rw [hsel]
        simp only [List.dropLast_single, sumNums]
        simpa using hlt
      · have ih := greedy_dropLast rest req (tot + v.valueNum) hsel
        obtain ⟨w, ws, hws⟩ : ∃ w ws,
            greedySelect rest req (tot + v.valueNum) = w :: ws := by
          cases hg : greedySelect rest req (tot + v.valueNum) with
          | nil => exact absurd hg hsel
          | cons w ws => exact ⟨w, ws, rfl⟩
        rw [hws] at ih ⊢
        rw [List.dropLast_cons₂, sumNums_cons]
        omega

lemma isSameValue_true_iff (v w : Value) :
    v.isSameValue w = true ↔ rangeEq v w := by
  unfold Value.isSameValue rangeEq Value.endIdx
  rw [decide_eq_true_eq]
  omega

lemma rangeEq_refl (v : Value) : rangeEq v v := ⟨rfl, rfl⟩

lemma rangeEq_symm {v w : Value} (h : rangeEq v w) : rangeEq w v :=
  ⟨h.1.symm, h.2.symm⟩

lemma rangeEq_trans {u v w : Value} (h₁ : rangeEq u v) (h₂ : rangeEq v w) :
    rangeEq u w := ⟨h₁.1.trans h₂.1, h₁.2.trans h₂.2⟩

lemma rangeEq_setState (v : Value) (s : ValueState) :
    rangeEq (v.setState s) v := ⟨rfl, rfl⟩

/-- Two overlapping node values in a pairwise-disjoint positive-count list
cannot share their interval data. -/
lemma not_rangeEq_of_disj {a b : Value} (hd : Value.disj a b)
    (ha : 1 ≤ a.valueNum) : ¬ rangeEq a b := by
  rintro ⟨h1, h2⟩
  unfold Value.disj Value.endIdx at hd
  omega

/-- Finding a member node by id under unique ids. -/
lemma find?_id_of_mem : ∀ (l : List VNode) (n : VNode),
    (l.map (·.nodeId)).Nodup → n ∈ l →
      l.find? (fun m => m.nodeId = n.nodeId) = some n
  | [], n, _, hn => absurd hn (List.not_mem_nil n)
  | h :: rest, n, hnd, hn => by
    rcases List.mem_cons.mp hn with rfl | hn'
    · exact List.find?_cons_of_pos _ (by simp)
    · have hne : h.nodeId ≠ n.nodeId := by
        intro heq
        have : n.nodeId ∈ rest.map (·.nodeId) := List.mem_map_of_mem _ hn'
        rw [List.map_cons] at hnd
        exact (List.nodup_cons.mp hnd).1 (heq ▸ this)
      rw [List.find?_cons_of_neg _ (by simp [hne])]
      have hnd' : (rest.map (·.nodeId)).Nodup := by
        rw [List.map_cons] at hnd
        exact (List.nodup_cons.mp hnd).2
      exact find?_id_of_mem rest n hnd' hn'

/-- Finding a member node by interval data under the disjointness
invariant: the first (and only) match is the node itself. -/
lemma find?_range_of_mem : ∀ (l : List VNode) (n : VNode) (w : Value),
    (∀ m ∈ l, 1 ≤ m.val.valueNum) →
    l.Pairwise (fun a b => Value.disj a.val b.val) →
    n ∈ l → rangeEq n.val w →
      l.find? (fun m => m.val.isSameValue w) = some n
  | [], n, w, _, _, hn, _ => absurd hn (List.not_mem_nil n)
  | h :: rest, n, w, hpos, hpw, hn, hr => by
    rcases List.mem_cons.mp hn with rfl | hn'
    · exact List.find?_cons_of_pos _ (by rw [isSameValue_true_iff]; exact hr)
    · have hdisj : Value.disj h.val n.val :=
        (List.pairwise_cons.mp hpw).1 n hn'
      have hne : ¬ (h.val.isSameValue w = true) := by
        rw [isSameValue_true_iff]
        intro hsame
        exact not_rangeEq_of_disj hdisj (hpos h (by simp))
          (rangeEq_trans hsame (rangeEq_symm hr))
      rw [List.find?_cons_of_neg _ (by simpa using hne)]
      exact find?_range_of_mem rest n w
        (fun m hm => hpos m (List.mem_cons_of_mem h hm))
        (List.pairwise_cons.mp hpw).2 hn' hr

/-- Interval/identity skeleton of a collection (what every state update
leaves untouched). -/
def skel (c : AVColl) : List (Nat × Nat × Nat) :=
  c.nodes.map (fun n => (n.nodeId, n.val.beginIdx, n.val.valueNum))

lemma skel_updateValueState (c : AVColl) (nid : Nat) (s : ValueState) :
    skel (c.updateValueState nid s).2 = skel c := by
  unfold AVColl.updateValueState
  cases hfind : c.nodes.find? (fun n => n.nodeId = nid) with
  | none => rfl
  | some n =>
    dsimp only
    split
    · rfl
    · unfold skel
      dsimp only
      rw [List.map_map]
      refine List.map_congr_left ?_
      intro m _
      by_cases hm : m.nodeId = nid <;> simp [hm, Value.setState]

lemma skel_updateByValue (c : AVColl) (v : Value) (s : ValueState) :
    skel (updateByValue c v s) = skel c := by
  unfold updateByValue
  cases findNodeByValue c v with
  | none => rfl
  | some nid => exact skel_updateValueState c nid s

/-- The well-formedness invariant only depends on the skeleton. -/
lemma wf_of_skel_eq {c c' : AVColl} (h : skel c' = skel c)
    (hwf : collWF c) : collWF c' := by
  obtain ⟨h1, h2, h3⟩ := hwf
  unfold skel at h
  have hids : c'.nodes.map (·.nodeId) = c.nodes.map (·.nodeId) := by
    have := congrArg (List.map (fun e : Nat × Nat × Nat => e.1)) h
    simpa [List.map_map, Function.comp] using this
  have hranges : c'.nodes.map (fun n => (n.val.beginIdx, n.val.valueNum)) =
      c.nodes.map (fun n => (n.val.beginIdx, n.val.valueNum)) := by
    have := congrArg (List.map (fun e : Nat × Nat × Nat => e.2)) h
    simpa [List.map_map, Function.comp] using this
  refine ⟨?_, ?_, ?_⟩
  · rw [hids]
    exact h1
  · intro n hn
    have hmem : (n.val.beginIdx, n.val.valueNum) ∈
        c'.nodes.map (fun n => (n.val.beginIdx, n.val.valueNum)) :=
      List.mem_map_of_mem _ hn
    rw [hranges] at hmem
    obtain ⟨m, hm, hmv⟩ := List.mem_map.mp hmem
    have : m.val.valueNum = n.val.valueNum := congrArg Prod.snd hmv
    rw [← this]
    exact h2 m hm
  · have hpw' : (c.nodes.map (fun n => (n.val.beginIdx, n.val.valueNum))).Pairwise
        (fun p q => p.1 + p.2 - 1 < q.1 ∨ q.1 + q.2 - 1 < p.1) := by
      rw [List.pairwise_map]
      refine h3.imp ?_
      intro a b hd
      unfold Value.disj Value.endIdx at hd
      exact hd
    rw [← hranges, List.pairwise_map] at hpw'
    refine hpw'.imp ?_
    intro a b hd
    unfold Value.disj Value.endIdx
    exact hd

lemma wf_updateByValue (c : AVColl) (v : Value) (s : ValueState)
    (hwf : collWF c) : collWF (updateByValue c v s) :=
  wf_of_skel_eq (skel_updateByValue c v s) hwf

/-- Whether some node of the collection carries the interval of `v`. -/
def hasRange (c : AVColl) (v : Value) : Prop :=
  ∃ n ∈ c.nodes, rangeEq n.val v

lemma hasRange_of_skel_eq {c c' : AVColl} (h : skel c' = skel c)
    {v : Value} (hv : hasRange c v) : hasRange c' v := by
  obtain ⟨n, hn, hr⟩ := hv
  unfold skel at h
  have hranges : c'.nodes.map (fun n => (n.val.beginIdx, n.val.valueNum)) =
      c.nodes.map (fun n => (n.val.beginIdx, n.val.valueNum)) := by
    have := congrArg (List.map (fun e : Nat × Nat × Nat => e.2)) h
    simpa [List.map_map, Function.comp] using this
  have hmem : (n.val.beginIdx, n.val.valueNum) ∈
      c.nodes.map (fun n => (n.val.beginIdx, n.val.valueNum)) :=
    List.mem_map_of_mem _ hn
  rw [← hranges] at hmem
  obtain ⟨m, hm, hmv⟩ := List.mem_map.mp hmem
  refine ⟨m, hm, ?_, ?_⟩
  · exact (congrArg Prod.fst hmv).trans hr.1
  · exact (congrArg Prod.snd hmv).trans hr.2

/-- `find?` with an interval-based predicate commutes with the state
update map of `update_value_state` (states are invisible to it). -/
lemma find?_update_map_stable (l : List VNode) (nid : Nat) (s : ValueState)
    (p : VNode → Bool)
    (hp : ∀ m : VNode, p ⟨m.nodeId, m.val.setState s⟩ = p m) :
    (l.map (fun m => if m.nodeId = nid then ⟨m.nodeId, m.val.setState s⟩
        else m)).find? p =
      (l.find? p).map
        (fun m => if m.nodeId = nid then ⟨m.nodeId, m.val.setState s⟩
          else m) := by
  induction l with
  | nil => rfl
  | cons m rest ih =>
    by_cases hm : m.nodeId = nid
    · simp only [List.map_cons, if_pos hm]
      cases hpm : p m with
      | true =>
        rw [List.find?_cons_of_pos _ (by rw [hp]; exact hpm),
          List.find?_cons_of_pos _ hpm]
        simp [hm]
      | false =>
        rw [List.find?_cons_of_neg _ (by rw [hp]; simp [hpm]),
          List.find?_cons_of_neg _ (by simp [hpm])]
        exact ih
    · simp only [List.map_cons, if_neg hm]
      cases hpm : p m with
      | true =>
        rw [List.find?_cons_of_pos _ hpm, List.find?_cons_of_pos _ hpm]
        simp [hm]
      | false =>
        rw [List.find?_cons_of_neg _ (by simp [hpm]),
          List.find?_cons_of_neg _ (by simp [hpm])]
        exact ih

/-- Updating by a present value sets the state observed at its interval. -/
lemma stateByRange_update_hit (c : AVColl) (hwf : collWF c) {w : Value}
    (hw : hasRange c w) (s : ValueState) :
    stateByRange (updateByValue c w s) w = some s := by
  obtain ⟨hids, hpos, hpw⟩ := hwf
  obtain ⟨n, hn, hr⟩ := hw
  have hfr : c.nodes.find? (fun m => m.val.isSameValue w) = some n :=
    find?_range_of_mem c.nodes n w hpos hpw hn hr
  unfold updateByValue findNodeByValue
  rw [hfr]
  dsimp only [Option.map_some']
  unfold AVColl.updateValueState
  rw [find?_id_of_mem c.nodes n hids hn]
  dsimp only
  by_cases hst : n.val.state = s
  · rw [if_pos hst]
    unfold stateByRange
    rw [hfr]
    simp [hst]
  · rw [if_neg hst]
    unfold stateByRange
    dsimp only
    rw [find?_update_map_stable c.nodes n.nodeId s
      (fun m => m.val.isSameValue w) (fun m => rfl), hfr]
    simp [Value.setState]

/-- Updating by one value leaves the state observed at any other interval
unchanged. -/
lemma stateByRange_update_miss (c : AVColl) (hwf : collWF c) (w v : Value)
    (hvw : ¬ rangeEq v w) (s : ValueState) :
    stateByRange (updateByValue c w s) v = stateByRange c v := by
  obtain ⟨hids, hpos, hpw⟩ := hwf
  unfold updateByValue
  cases hf : findNodeByValue c w with
  | none => rfl
  | some nid =>
    unfold findNodeByValue at hf
    cases hfind : c.nodes.find? (fun m => m.val.isSameValue w) with
    | none => rw [hfind] at hf; exact absurd hf (by simp)
    | some n' =>
      rw [hfind] at hf
      simp only [Option.map_some', Option.some_inj] at hf
      have hmem : n' ∈ c.nodes := List.mem_of_find?_eq_some hfind
      have hrange : rangeEq n'.val w := by
        have := List.find?_some hfind
        rwa [isSameValue_true_iff] at this
      subst hf
      dsimp only
      unfold AVColl.updateValueState
      rw [find?_id_of_mem c.nodes n' hids hmem]
      dsimp only
      by_cases hst : n'.val.state = s
      · rw [if_pos hst]
      · rw [if_neg hst]
        unfold stateByRange
        dsimp only
        rw [find?_update_map_stable c.nodes n'.nodeId s
          (fun m => m.val.isSameValue v) (fun m => rfl)]
        cases hfv : c.nodes.find? (fun m => m.val.isSameValue v) with
        | none => rfl
        | some m0 =>
          have hm0 : m0 ∈ c.nodes := List.mem_of_find?_eq_some hfv
          have hm0r : rangeEq m0.val v := by
            have := List.find?_some hfv
            rwa [isSameValue_true_iff] at this
          have hne : m0.nodeId ≠ n'.nodeId := by
            intro heq
            have hm0n : m0 = n' :=
              List.inj_on_of_nodup_map hids hm0 hmem heq
            exact hvw (rangeEq_trans (rangeEq_symm hm0r)
              (hm0n ▸ hrange))
          simp [hne]

/-- Effect of the state-update loop: wellformedness and the skeleton are
preserved, every listed interval ends in the requested state, and every
other interval's state is untouched. -/
lemma applyStates_spec (s : ValueState) :
    ∀ (vs : List Value) (c : AVColl), collWF c →
      vs.Pairwise (fun a b => ¬ rangeEq a b) →
      (∀ v ∈ vs, hasRange c v) →
      collWF (applyStates c vs s) ∧
      skel (applyStates c vs s) = skel c ∧
      (∀ v ∈ vs, stateByRange (applyStates c vs s) v = some s) ∧
      (∀ w, (∀ v ∈ vs, ¬ rangeEq w v) →
        stateByRange (applyStates c vs s) w = stateByRange c w)
  | [], c, hwf, _, _ =>
    ⟨hwf, rfl, by simp, fun w _ => rfl⟩
  | v :: rest, c, hwf, hpw, hpresent => by
    have hwf₁ : collWF (updateByValue c v s) := wf_updateByValue c v s hwf
    have hskel₁ : skel (updateByValue c v s) = skel c :=
      skel_updateByValue c v s
    have hpresent₁ : ∀ u ∈ rest, hasRange (updateByValue c v s) u :=
      fun u hu => hasRange_of_skel_eq hskel₁
        (hpresent u (List.mem_cons_of_mem v hu))
    obtain ⟨hpwv, hpw'⟩ := List.pairwise_cons.mp hpw
    obtain ⟨ihwf, ihskel, ihall, ihother⟩ :=
      applyStates_spec s rest (updateByValue c v s) hwf₁ hpw' hpresent₁
    have hstep : applyStates c (v :: rest) s =
        applyStates (updateByValue c v s) rest s := rfl
    refine ⟨hstep ▸ ihwf, hstep ▸ (ihskel.trans hskel₁), ?_, ?_⟩
    · intro u hu
      rcases List.mem_cons.mp hu with rfl | hu'
      · rw [hstep, ihother u (fun x hx => ?_)]
        · exact stateByRange_update_hit c hwf (hpresent u (by simp)) s
        · intro hr
          exact hpwv x hx hr
      · exact hstep ▸ ihall u hu'
    · intro w hw
      rw [hstep, ihother w (fun x hx => hw x (List.mem_cons_of_mem v hx))]
      exact stateByRange_update_miss c hwf v w (hw v (by simp)) s

lemma find?_decomp {α : Type} (p : α → Bool) :
    ∀ (l : List α) (a : α), l.find? p = some a →
      ∃ l1 l2, l = l1 ++ a :: l2 ∧ ∀ m ∈ l1, p m = false
  | [], a, h => by simp [List.find?] at h
  | h :: rest, a, hf => by
    cases hp : p h with
    | true =>
      rw [List.find?_cons_of_pos _ hp, Option.some_inj] at hf
      exact ⟨[], rest, by rw [hf]; rfl, by simp⟩
    | false =>
      rw [List.find?_cons_of_neg _ (by simp [hp])] at hf
      obtain ⟨l1, l2, hdec, hl1⟩ := find?_decomp p rest a hf
      refine ⟨h :: l1, l2, by rw [hdec]; rfl, ?_⟩
      intro m hm
      rcases List.mem_cons.mp hm with rfl | hm'
      · exact hp
      · exact hl1 m hm'

lemma insertSplit_decomp (nid fresh : Nat) (v1 v2 : Value) :
    ∀ (l1 : List VNode) (n : VNode) (l2 : List VNode),
      (∀ m ∈ l1, m.nodeId ≠ nid) → n.nodeId = nid →
      insertSplit nid fresh v1 v2 (l1 ++ n :: l2) =
        l1 ++ ⟨nid, v1⟩ :: ⟨fresh, v2⟩ :: l2
  | [], n, l2, _, hnid => by
    simp only [List.nil_append]
    unfold insertSplit
    rw [if_pos hnid, hnid]
  | m :: l1, n, l2, hl1, hnid => by
    simp only [List.cons_append]
    unfold insertSplit
    rw [if_neg (hl1 m (by simp))]
    rw [insertSplit_decomp nid fresh v1 v2 l1 n l2
      (fun u hu => hl1 u (List.mem_cons_of_mem m hu)) hnid]

lemma le_foldr_max : ∀ (l : List Nat) (x : Nat), x ∈ l → x ≤ l.foldr max 0
  | [], x, h => absurd h (List.not_mem_nil x)
  | a :: rest, x, h => by
    rcases List.mem_cons.mp h with rfl | h'
    · exact le_max_left _ _
    · exact le_trans (le_foldr_max rest x h') (le_max_right _ _)

lemma freshId_not_mem (c : AVColl) :
    freshId c ∉ c.nodes.map (·.nodeId) := by
  intro h
  have := le_foldr_max _ _ h
  unfold freshId at this
  omega

lemma disj_of_within (x nv vi : Value) (h1 : nv.beginIdx ≤ vi.beginIdx)
    (h2 : vi.endIdx ≤ nv.endIdx) (hd : Value.disj x nv) : Value.disj x vi := by
  have e1 : vi.endIdx = vi.beginIdx + vi.valueNum - 1 := rfl
  have e2 : nv.endIdx = nv.beginIdx + nv.valueNum - 1 := rfl
  have e3 : x.endIdx = x.beginIdx + x.valueNum - 1 := rfl
  unfold Value.disj Value.endIdx at hd ⊢
  omega

lemma disj_symm {a b : Value} (h : Value.disj a b) : Value.disj b a := by
  unfold Value.disj at h ⊢
  omega

/-- Behaviour of `split_value` on the collection under the integrity
invariant, for an in-range change on a present node: the node's value is
replaced by the kept half, the change half is inserted after it, and
integrity and all other intervals are preserved. -/
lemma collSplit_spec (c : AVColl) (hwf : collWF c) (n : VNode)
    (hn : n ∈ c.nodes) (ct : Nat) (h0 : 0 < ct)
    (hlt : ct < n.val.valueNum) :
    ∃ c' : AVColl,
      collSplit c n.nodeId (ct : Int) =
        (some (⟨n.val.beginIdx, n.val.valueNum - ct, n.val.state⟩ : Value),
         some (⟨n.val.beginIdx + (n.val.valueNum - ct) - 1 + 1, ct,
           n.val.state⟩ : Value), c') ∧
      collWF c' ∧
      hasRange c'
        (⟨n.val.beginIdx, n.val.valueNum - ct, n.val.state⟩ : Value) ∧
      hasRange c'
        (⟨n.val.beginIdx + (n.val.valueNum - ct) - 1 + 1, ct,
          n.val.state⟩ : Value) ∧
      (∀ v, hasRange c v → ¬ rangeEq v n.val → hasRange c' v) := by
  obtain ⟨hids, hpos, hpw⟩ := hwf
  have hfid : c.nodes.find? (fun m => m.nodeId = n.nodeId) = some n :=
    find?_id_of_mem c.nodes n hids hn
  set v1 : Value := ⟨n.val.beginIdx, n.val.valueNum - ct, n.val.state⟩
    with hv1
  set v2 : Value := ⟨n.val.beginIdx + (n.val.valueNum - ct) - 1 + 1, ct,
    n.val.state⟩ with hv2
  have hsv : n.val.splitValue (ct : Int) = .ok (v1, v2) := by
    unfold Value.splitValue
    rw [if_neg (by push_cast; omega)]
    simp only [Int.toNat_natCast]
    rfl
  have heq : collSplit c n.nodeId (ct : Int) =
      (some v1, some v2, ⟨insertSplit n.nodeId (freshId c) v1 v2 c.nodes⟩) := by
    unfold collSplit
    rw [hfid]
    dsimp only
    rw [if_neg (by push_cast; omega), hsv]
  obtain ⟨l1, l2, hdec, hl1p⟩ := find?_decomp _ c.nodes n hfid
  have hl1 : ∀ m ∈ l1, m.nodeId ≠ n.nodeId := by
    intro m hm
    have := hl1p m hm
    simpa using this
  have hins : insertSplit n.nodeId (freshId c) v1 v2 c.nodes =
      l1 ++ ⟨n.nodeId, v1⟩ :: ⟨freshId c, v2⟩ :: l2 := by
    rw [hdec]
    exact insertSplit_decomp n.nodeId (freshId c) v1 v2 l1 n l2 hl1 rfl
  have hnum1 : 1 ≤ v1.valueNum := by
    rw [hv1]
    dsimp only
    omega
  have hnum2 : 1 ≤ v2.valueNum := by
    rw [hv2]
    dsimp only
    omega
  have hwithin1b : n.val.beginIdx ≤ v1.beginIdx := le_refl _
  have hwithin1e : v1.endIdx ≤ n.val.endIdx := by
    rw [hv1]
    unfold Value.endIdx
    dsimp only
    omega
  have hwithin2b : n.val.beginIdx ≤ v2.beginIdx := by
    rw [hv2]
    dsimp only
    omega
  have hwithin2e : v2.endIdx ≤ n.val.endIdx := by
    rw [hv2]
    unfold Value.endIdx
    dsimp only
    omega
  have hd12 : Value.disj v1 v2 := by
    unfold Value.disj Value.endIdx
    rw [hv1, hv2]
    dsimp only
    omega
  refine ⟨⟨insertSplit n.nodeId (freshId c) v1 v2 c.nodes⟩, heq, ?_, ?_, ?_, ?_⟩
  · rw [show (⟨insertSplit n.nodeId (freshId c) v1 v2 c.nodes⟩ : AVColl) =
      ⟨l1 ++ ⟨n.nodeId, v1⟩ :: ⟨freshId c, v2⟩ :: l2⟩ from by rw [hins]]
    have hfresh : freshId c ∉ c.nodes.map (·.nodeId) := freshId_not_mem c
    rw [hdec] at hids hpos hpw hfresh
    refine ⟨?_, ?_, ?_⟩
    · simp only [List.map_append, List.map_cons] at hids hfresh ⊢
      rw [List.nodup_middle] at hids ⊢
      rw [List.nodup_cons] at hids ⊢
      obtain ⟨hnid_nm, hab⟩ := hids
      simp only [List.mem_append, List.mem_cons] at hnid_nm hfresh ⊢
      constructor
      · rintro (hmem | hmem | hmem)
        · exact hnid_nm (Or.inl hmem)
        · exact hfresh (Or.inr (Or.inl hmem.symm))
        · exact hnid_nm (Or.inr hmem)
      · rw [List.nodup_middle, List.nodup_cons]
        refine ⟨?_, hab⟩
        intro hmem
        exact hfresh (by
          simp only [List.mem_append] at hmem
          rcases hmem with hmem | hmem
          · exact Or.inl hmem
          · exact Or.inr (Or.inr hmem))
    · intro m hm
      simp only [List.mem_append, List.mem_cons] at hm
      rcases hm with hm | rfl | rfl | hm
      · exact hpos m (by simp [hm])
      · exact hnum1
      · exact hnum2
      · exact hpos m (by simp [hm])
    · obtain ⟨pl1, pnl2, cross⟩ := List.pairwise_append.mp hpw
      obtain ⟨hn_l2, pl2⟩ := List.pairwise_cons.mp pnl2
      refine List.pairwise_append.mpr ⟨pl1, ?_, ?_⟩
      · refine List.pairwise_cons.mpr ⟨?_, List.pairwise_cons.mpr ⟨?_, pl2⟩⟩
        · intro b hb
          rcases List.mem_cons.mp hb with rfl | hb'
          · exact hd12
          · exact disj_symm (disj_of_within b.val n.val v1 hwithin1b
              hwithin1e (disj_symm (hn_l2 b hb')))
        · intro b hb'
          exact disj_symm (disj_of_within b.val n.val v2 hwithin2b
            hwithin2e (disj_symm (hn_l2 b hb')))
      · intro a ha b hb
        simp only [List.mem_cons] at hb
        rcases hb with rfl | rfl | hb'
        · exact disj_of_within a.val n.val v1 hwithin1b hwithin1e
            (cross a ha n (by simp))
        · exact disj_of_within a.val n.val v2 hwithin2b hwithin2e
            (cross a ha n (by simp))
        · exact cross a ha b (by simp [hb'])
  · refine ⟨⟨n.nodeId, v1⟩, ?_, rangeEq_refl v1⟩
    rw [hins]
    simp
  · refine ⟨⟨freshId c, v2⟩, ?_, rangeEq_refl v2⟩
    rw [hins]
    simp
  · intro v hv hnr
    obtain ⟨m, hm, hr⟩ := hv
    rw [hdec] at hm
    simp only [List.mem_append, List.mem_cons] at hm
    rcases hm with hm | rfl | hm
    · exact ⟨m, by rw [hins]; simp [hm], hr⟩
    · exact absurd (rangeEq_symm hr) hnr
    · exact ⟨m, by rw [hins]; simp [hm], hr⟩

lemma greedy_sum_le : ∀ (l : List Value) (req tot : Nat),
    sumNums (greedySelect l req tot) ≤ sumNums l
  | [], _, _ => le_refl _
  | v :: rest, req, tot => by
    unfold greedySelect
    split
    · simp [sumNums]
    · rw [sumNums_cons, sumNums_cons]
      exact Nat.add_le_add_left (greedy_sum_le rest req (tot + v.valueNum)) _

lemma availOf_mem_node (c : AVColl) (v : Value) (hv : v ∈ availOf c) :
    ∃ n ∈ c.nodes, n.val = v ∧ v.state = .unspent := by
  unfold availOf AVColl.findByState at hv
  obtain ⟨n, hn, hnv⟩ := List.mem_map.mp hv
  have hfil := List.mem_filter.mp hn
  refine ⟨n, hfil.1, hnv, ?_⟩
  rw [← hnv]
  simpa using hfil.2

lemma availOf_pairwise (c : AVColl) (hwf : collWF c) :
    (availOf c).Pairwise Value.disj := by
  unfold availOf AVColl.findByState
  rw [List.pairwise_map]
  exact (hwf.2.2.sublist (List.filter_sublist c.nodes))

lemma availOf_nums (c : AVColl) (hwf : collWF c) :
    ∀ v ∈ availOf c, 1 ≤ v.valueNum := by
  intro v hv
  obtain ⟨n, hn, hnv, _⟩ := availOf_mem_node c v hv
  rw [← hnv]
  exact hwf.2.1 n hn

lemma refreshed_of_stateByRange (c2 : AVColl) (v : Value) (s : ValueState)
    (h : stateByRange c2 v = some s) :
    (refreshed c2 v).state = s ∧ rangeEq (refreshed c2 v) v ∧
      hasRange c2 (refreshed c2 v) := by
  unfold stateByRange at h
  unfold refreshed
  cases hf : c2.nodes.find? (fun n => n.val.isSameValue v) with
  | none => rw [hf] at h; exact absurd h (by simp)
  | some n =>
    rw [hf] at h
    simp only [Option.map_some', Option.some_inj] at h
    have hr : rangeEq n.val v := by
      have := List.find?_some hf
      rwa [isSameValue_true_iff] at this
    exact ⟨h, hr, n, List.mem_of_find?_eq_some hf, rangeEq_refl n.val⟩

lemma sumNums_map_refreshed (c2 : AVColl) :
    ∀ l : List Value, (∀ v ∈ l, rangeEq (refreshed c2 v) v) →
      sumNums (l.map (refreshed c2)) = sumNums l
  | [], _ => rfl
  | v :: rest, h => by
    rw [List.map_cons, sumNums_cons, sumNums_cons,
      sumNums_map_refreshed c2 rest (fun u hu => h u (List.mem_cons_of_mem v hu)),
      (h v (by simp)).2]

lemma pairwise_notRange_map (c2 : AVColl) (l : List Value)
    (hr : ∀ v ∈ l, rangeEq (refreshed c2 v) v)
    (hp : l.Pairwise (fun a b => ¬ rangeEq a b)) :
    (l.map (refreshed c2)).Pairwise (fun a b => ¬ rangeEq a b) := by
  rw [List.pairwise_map]
  refine hp.imp_of_mem ?_
  intro a b ha hb hne hcon
  exact hne (rangeEq_trans (rangeEq_symm (hr a ha))
    (rangeEq_trans hcon (hr b hb)))

/-- Packaging of the final `SELECTED` loop, the returned (aliased) value
objects, and a subsequent rollback. -/
lemma finalize_spec (c1 : AVColl) (selFinal : List Value)
    (hwf1 : collWF c1)
    (hpw : selFinal.Pairwise (fun a b => ¬ rangeEq a b))
    (hpres : ∀ v ∈ selFinal, hasRange c1 v) :
    (∀ u ∈ selFinal.map (refreshed (applyStates c1 selFinal .selected)),
      u.state = .selected) ∧
    sumNums (selFinal.map (refreshed (applyStates c1 selFinal .selected))) =
      sumNums selFinal ∧
    (∀ u ∈ selFinal.map (refreshed (applyStates c1 selFinal .selected)),
      stateByRange
        (rollbackSelection (applyStates c1 selFinal .selected)
          (selFinal.map (refreshed (applyStates c1 selFinal .selected)))) u =
        some .unspent) ∧
    (∀ w, (∀ v ∈ selFinal, ¬ rangeEq w v) →
      stateByRange (applyStates c1 selFinal .selected) w =
        stateByRange c1 w) := by
  obtain ⟨wf2, skel2, hall, hother⟩ :=
    applyStates_spec .selected selFinal c1 hwf1 hpw hpres
  have htriple : ∀ v ∈ selFinal,
      (refreshed (applyStates c1 selFinal .selected) v).state = .selected ∧
      rangeEq (refreshed (applyStates c1 selFinal .selected) v) v ∧
      hasRange (applyStates c1 selFinal .selected)
        (refreshed (applyStates c1 selFinal .selected) v) :=
    fun v hv => refreshed_of_stateByRange _ v .selected (hall v hv)
  refine ⟨?_, ?_, ?_, hother⟩
  · intro u hu
    obtain ⟨v, hv, rfl⟩ := List.mem_map.mp hu
    exact (htriple v hv).1
  · exact sumNums_map_refreshed _ selFinal (fun v hv => (htriple v hv).2.1)
  · obtain ⟨_, _, hall', _⟩ :=
      applyStates_spec .unspent
        (selFinal.map (refreshed (applyStates c1 selFinal .selected)))
        (applyStates c1 selFinal .selected) wf2
        (pairwise_notRange_map _ selFinal (fun v hv => (htriple v hv).2.1) hpw)
        (by
          intro u hu
          obtain ⟨v, hv, rfl⟩ := List.mem_map.mp hu
          exact (htriple v hv).2.2)
    exact hall'

/-- C2: picker correctness under the account-integrity invariant.
A required amount below 1 fails with `InvalidArgument`; a required amount
above the aggregate `Unspent` balance fails with `InsufficientFunds`;
otherwise the picker succeeds, the returned values sum to at least the
required amount, every returned value (and the change value) is
`Selected`, a change value is produced exactly when the greedy running sum
strictly exceeds the requirement and then carries `sum - required`, and a
rollback puts every returned value back to `Unspent`. -/
theorem C2_pick_values_correct (c : AVColl) (required : Int)
    (hwf : collWF c) :
    (required < 1 → pickValues c required = .error .invalidArgument) ∧
    (1 ≤ required → (c.balanceByState .unspent : Int) < required →
      pickValues c required = .error .insufficientFunds) ∧
    (1 ≤ required → required ≤ (c.balanceByState .unspent : Int) →
      ∃ sel chg c2, pickValues c required = .ok (sel, chg, c2) ∧
        required ≤ (sumNums sel : Int) ∧
        (∀ v ∈ sel, v.state = .selected) ∧
        (chg.isSome = true ↔
          required < (sumNums (selOf c required.toNat) : Int)) ∧
        (∀ cv ∈ chg, (cv.valueNum : Int) =
          (sumNums (selOf c required.toNat) : Int) - required ∧
          cv.state = .selected) ∧
        (∀ v ∈ sel,
          stateByRange (rollbackSelection c2 sel) v = some .unspent)) := by
  refine ⟨?_, ?_, ?_⟩
  · intro h
    unfold pickValues
    rw [if_pos h]
  · intro h1 h2
    have hreq : (required.toNat : Int) = required :=
      Int.toNat_of_nonneg (by omega)
    have hle : sumNums (selOf c required.toNat) ≤ sumNums (availOf c) :=
      greedy_sum_le (availOf c) required.toNat 0
    have hbal : sumNums (availOf c) = c.balanceByState .unspent := rfl
    unfold pickValues
    rw [if_neg (by omega), if_pos (by omega)]
  · intro h1 h2
    have hreq : (required.toNat : Int) = required :=
      Int.toNat_of_nonneg (by omega)
    have hbal : sumNums (availOf c) = c.balanceByState .unspent := rfl
    have hsum_ge : required.toNat ≤ sumNums (selOf c required.toNat) := by
      have h := greedy_sum (availOf c) required.toNat 0 (by omega)
      simpa using h
    have hsubav : List.Sublist (selOf c required.toNat) (availOf c) :=
      (greedy_front (availOf c) required.toNat 0).sublist
    have hselpw_disj : (selOf c required.toNat).Pairwise Value.disj :=
      (availOf_pairwise c hwf).sublist hsubav
    have hselnums : ∀ v ∈ selOf c required.toNat, 1 ≤ v.valueNum :=
      fun v hv => availOf_nums c hwf v (hsubav.subset hv)
    have hselpw : (selOf c required.toNat).Pairwise
        (fun a b => ¬ rangeEq a b) :=
      hselpw_disj.imp_of_mem
        (fun ha _ hd => not_rangeEq_of_disj hd (hselnums _ ha))
    have hselpres : ∀ v ∈ selOf c required.toNat, hasRange c v := by
      intro v hv
      obtain ⟨n, hn, hnv, _⟩ := availOf_mem_node c v (hsubav.subset hv)
      exact ⟨n, hn, hnv ▸ rangeEq_refl v⟩
    unfold pickValues
    rw [if_neg (by omega), if_neg (by omega)]
    by_cases hch : sumNums (selOf c required.toNat) - required.toNat = 0
    · -- no change: the greedy total hits the requirement exactly
      have hstep : pickStep c required.toNat =
          (selOf c required.toNat, none, c) := by
        unfold pickStep
        rw [if_neg (by rintro ⟨hc1, _⟩; omega)]
      have hfc : pickFinalColl c required.toNat =
          applyStates c (selOf c required.toNat) .selected := by
        unfold pickFinalColl
        rw [hstep]
      obtain ⟨hstates, hsum, hroll, _⟩ :=
        finalize_spec c (selOf c required.toNat) hwf hselpw hselpres
      refine ⟨_, _, _, rfl, ?_, ?_, ?_, ?_, ?_⟩
      · rw [hstep, hfc]
        dsimp only
        rw [hsum]
        omega
      · rw [hstep, hfc]
        exact hstates
      · rw [hstep, hfc]
        dsimp only
        simp only [Option.map_none', Option.isSome_none, Bool.false_eq_true,
          false_iff]
        omega
      · rw [hstep, hfc]
        simp
      · rw [hstep, hfc]
        exact hroll
    · -- change: the last selected value is split
      have hselne : selOf c required.toNat ≠ [] := by
        intro h
        rw [h] at hsum_ge
        simp [sumNums] at hsum_ge
        omega
      have hdecomp : (selOf c required.toNat).dropLast ++
          [(selOf c required.toNat).getLastD ⟨0, 1, .unspent⟩] =
          selOf c required.toNat :=
        dropLast_append_getLastD _ _ hselne
      have hlast_mem : (selOf c required.toNat).getLastD ⟨0, 1, .unspent⟩ ∈
          selOf c required.toNat := by
        conv_lhs => rw [← hdecomp]
        exact List.mem_append_right _ (List.mem_singleton_self _)
      obtain ⟨n, hn, hnval, hlstate⟩ :=
        availOf_mem_node c _ (hsubav.subset hlast_mem)
      have hfind : findNodeByValue c
          ((selOf c required.toNat).getLastD ⟨0, 1, .unspent⟩) =
          some n.nodeId := by
        unfold findNodeByValue
        rw [find?_range_of_mem c.nodes n _ hwf.2.1 hwf.2.2 hn
          (hnval ▸ rangeEq_refl _)]
        rfl
      have hsumdec : sumNums (selOf c required.toNat) =
          sumNums ((selOf c required.toNat).dropLast) +
            ((selOf c required.toNat).getLastD ⟨0, 1, .unspent⟩).valueNum := by
        conv_lhs => rw [← hdecomp]
        rw [sumNums_append, sumNums_cons]
        simp [sumNums]
      have hdrop : 0 + sumNums ((selOf c required.toNat).dropLast) <
          required.toNat :=
        greedy_dropLast (availOf c) required.toNat 0 hselne
      have hctlt : sumNums (selOf c required.toNat) - required.toNat <
          n.val.valueNum := by
        rw [hnval]
        simp only [Nat.zero_add] at hdrop
        omega
      obtain ⟨c', heqsplit, hwfc', hpr1, hpr2, hprother⟩ :=
        collSplit_spec c hwf n hn
          (sumNums (selOf c required.toNat) - required.toNat)
          (by omega) hctlt
      have hstep : pickStep c required.toNat =
          ((selOf c required.toNat).dropLast ++
            [⟨n.val.beginIdx,
              n.val.valueNum -
                (sumNums (selOf c required.toNat) - required.toNat),
              n.val.state⟩],
           some ⟨n.val.beginIdx +
              (n.val.valueNum -
                (sumNums (selOf c required.toNat) - required.toNat)) - 1 + 1,
              sumNums (selOf c required.toNat) - required.toNat,
              n.val.state⟩,
           updateByValue c'
             ⟨n.val.beginIdx +
               (n.val.valueNum -
                 (sumNums (selOf c required.toNat) - required.toNat)) - 1 + 1,
               sumNums (selOf c required.toNat) - required.toNat,
               n.val.state⟩ .selected) := by
        unfold pickStep
        rw [if_pos ⟨by omega, hselne⟩, hfind]
        dsimp only
        rw [heqsplit]
      set ct : Nat := sumNums (selOf c required.toNat) - required.toNat
        with hct
      set v1 : Value := ⟨n.val.beginIdx, n.val.valueNum - ct, n.val.state⟩
        with hv1def
      set v2 : Value := ⟨n.val.beginIdx + (n.val.valueNum - ct) - 1 + 1, ct,
        n.val.state⟩ with hv2def
      set cB : AVColl := updateByValue c' v2 .selected with hcBdef
      set selF : List Value := (selOf c required.toNat).dropLast ++ [v1]
        with hselF
      have hnnum : n.val.valueNum =
          ((selOf c required.toNat).getLastD ⟨0, 1, .unspent⟩).valueNum := by
        rw [hnval]
      have hmemdrop : ∀ u ∈ (selOf c required.toNat).dropLast,
          u ∈ selOf c required.toNat :=
        fun u hu => (List.dropLast_sublist _).subset hu
      have hpwdec := hselpw_disj
      rw [← hdecomp] at hpwdec
      obtain ⟨pdrop, -, hcross⟩ := List.pairwise_append.mp hpwdec
      have hdisjlast : ∀ u ∈ (selOf c required.toNat).dropLast,
          Value.disj u n.val := by
        intro u hu
        rw [hnval]
        exact hcross u hu _ (List.mem_singleton_self _)
      have hv1within : n.val.beginIdx ≤ v1.beginIdx ∧
          v1.endIdx ≤ n.val.endIdx := by
        rw [hv1def]
        simp only [Value.endIdx]
        omega
      have hv2within : n.val.beginIdx ≤ v2.beginIdx ∧
          v2.endIdx ≤ n.val.endIdx := by
        rw [hv2def]
        simp only [Value.endIdx]
        omega
      have hdisj12 : Value.disj v1 v2 := by
        rw [hv1def, hv2def]
        simp only [Value.disj, Value.endIdx]
        omega
      have hv2num : 1 ≤ v2.valueNum := by
        rw [hv2def]
        dsimp only
        omega
      have hdisjv1 : ∀ u ∈ (selOf c required.toNat).dropLast,
          Value.disj u v1 :=
        fun u hu =>
          disj_of_within u n.val v1 hv1within.1 hv1within.2 (hdisjlast u hu)
      have hdisjv2 : ∀ u ∈ (selOf c required.toNat).dropLast,
          Value.disj u v2 :=
        fun u hu =>
          disj_of_within u n.val v2 hv2within.1 hv2within.2 (hdisjlast u hu)
      have hpwF : selF.Pairwise (fun a b => ¬ rangeEq a b) := by
        rw [hselF]
        refine List.pairwise_append.mpr ⟨?_, by simp, ?_⟩
        · exact pdrop.imp_of_mem
            (fun ha _ hd => not_rangeEq_of_disj hd
              (hselnums _ (hmemdrop _ ha)))
        · intro a ha b hb
          rw [List.mem_singleton] at hb
          subst hb
          exact not_rangeEq_of_disj (hdisjv1 a ha)
            (hselnums _ (hmemdrop _ ha))
      have hpresF : ∀ v ∈ selF, hasRange cB v := by
        intro v hv
        rw [hselF] at hv
        rcases List.mem_append.mp hv with hu | hu
        · have h3 : hasRange c' v :=
            hprother v (hselpres v (hmemdrop v hu))
              (not_rangeEq_of_disj (hdisjlast v hu)
                (hselnums _ (hmemdrop v hu)))
          exact hasRange_of_skel_eq (skel_updateByValue c' v2 .selected) h3
        · rw [List.mem_singleton] at hu
          subst hu
          exact hasRange_of_skel_eq (skel_updateByValue c' v2 .selected) hpr1
      have hwfB : collWF cB := wf_updateByValue c' v2 .selected hwfc'
      have hv2sel : stateByRange cB v2 = some .selected :=
        stateByRange_update_hit c' hwfc' hpr2 .selected
      have hv2notin : ∀ u ∈ selF, ¬ rangeEq v2 u := by
        intro u hu
        rw [hselF] at hu
        rcases List.mem_append.mp hu with h | h
        · exact not_rangeEq_of_disj (disj_symm (hdisjv2 u h)) hv2num
        · rw [List.mem_singleton] at h
          subst h
          exact not_rangeEq_of_disj (disj_symm hdisj12) hv2num
      obtain ⟨hstates2, hsum2, hroll2, hother2⟩ :=
        finalize_spec cB selF hwfB hpwF hpresF
      have hfc : pickFinalColl c required.toNat =
          applyStates cB selF .selected := by
        unfold pickFinalColl
        rw [hstep]
      have hv2after : stateByRange (applyStates cB selF .selected) v2 =
          some .selected := (hother2 v2 hv2notin).trans hv2sel
      have hselFsum : sumNums selF =
          sumNums ((selOf c required.toNat).dropLast) +
            (n.val.valueNum - ct) := by
        rw [hselF, sumNums_append]
        simp [sumNums, hv1def]
      refine ⟨_, _, _, rfl, ?_, ?_, ?_, ?_, ?_⟩
      · rw [hstep, hfc]
        dsimp only
        rw [hsum2, hselFsum]
        omega
      · rw [hstep, hfc]
        exact hstates2
      · rw [hstep, hfc]
        dsimp only
        refine iff_of_true rfl ?_
        omega
      · rw [hstep, hfc]
        dsimp only
        simp only [Option.map_some', Option.mem_def, Option.some.injEq]
        intro cv hcv
        obtain ⟨hst, hrg, -⟩ := refreshed_of_stateByRange
          (applyStates cB selF .selected) v2 .selected hv2after
        subst hcv
        refine ⟨?_, hst⟩
        have hnum : (refreshed (applyStates cB selF .selected) v2).valueNum =
            ct := by
          rw [hrg.2, hv2def]
        omega
      · rw [hstep, hfc]
        exact hroll2

/-- A concrete two-value account for exercising the picker. -/
def c2W : AVColl :=
  ⟨[⟨0, ⟨256, 10, .unspent⟩⟩, ⟨1, ⟨512, 5, .unspent⟩⟩]⟩

/-- Witness for C2: on an account holding Unspent intervals of 10 and 5
units, picking 12 units succeeds, selects at least 12 units all in
`Selected` state, produces a change value of 3 units, and rollback
restores every selected value to `Unspent`. -/
theorem C2_pick_values_correct_witness :
    collWF c2W ∧ (1 : Int) ≤ 12 ∧
      (12 : Int) ≤ (c2W.balanceByState .unspent : Int) ∧
      (∃ sel chg c2, pickValues c2W 12 = .ok (sel, chg, c2) ∧
        (12 : Int) ≤ (sumNums sel : Int) ∧
        (∀ v ∈ sel, v.state = .selected) ∧
        (chg.isSome = true ↔
          (12 : Int) < (sumNums (selOf c2W (12 : Int).toNat) : Int)) ∧
        (∀ cv ∈ chg, (cv.valueNum : Int) =
          (sumNums (selOf c2W (12 : Int).toNat) : Int) - 12 ∧
          cv.state = .selected) ∧
        (∀ v ∈ sel,
          stateByRange (rollbackSelection c2 sel) v = some .unspent)) := by
  have hwf : collWF c2W := by
    refine ⟨by decide, by decide, ?_⟩
    refine List.Pairwise.cons ?_ ?_
    · intro b hb
      rw [List.mem_singleton] at hb
      subst hb
      exact Or.inl (by decide)
    · simp
  exact ⟨hwf, by decide, by decide,
    (C2_pick_values_correct c2W 12 hwf).2.2 (by decide) (by decide)⟩
